import Mathlib

/-! Discriminated-union types of the HCL2 type model.

A shallow embedding of `pkg/codegen/hcl2/model/type_discriminated_union.go`.

* A Go `map[string]*ObjectType` is a list of `(key, member)` entries with pairwise distinct
  keys; the order of the list is the order in which one `range` loop visits the entries, and a
  lookup of a missing key yields the nil member (`none`).
* Pointer identity (`t == other`) is the comparison of the instances' addresses.
* The member type `*ObjectType`, the shared combinators and the constructors of the other type
  variants are declared elsewhere in the package; they are the fields of `Collaborators`.
-/

set_option autoImplicit false

namespace Model

/-- Modelled from the spec: the declaration of the constants is not in this file; the conversion
lattice is the three-valued ordering `NoConversion < UnsafeConversion < SafeConversion`, and
`NoConversion` is the zero value of the type. -/
inductive ConversionKind where
  | NoConversion
  | UnsafeConversion
  | SafeConversion
  deriving DecidableEq, Repr, Inhabited

namespace ConversionKind

/-- The integer value of a conversion kind. -/
def rank : ConversionKind → Nat
  | NoConversion => 0
  | UnsafeConversion => 1
  | SafeConversion => 2

end ConversionKind

/-- A source range (`hcl.Range`), reduced to a file name and two byte offsets. -/
structure Range where
  filename : String
  start : Nat
  stop : Nat
  deriving DecidableEq, Repr, Inhabited

/-- The severity of an `hcl.Diagnostic`. -/
inductive DiagnosticSeverity where
  | DiagError
  | DiagWarning
  deriving DecidableEq, Repr, Inhabited

/-- An `hcl.Diagnostic`: severity, summary and subject range. -/
structure Diagnostic where
  severity : DiagnosticSeverity
  summary : String
  subject : Range
  deriving DecidableEq, Repr, Inhabited

/-- The list type `hcl.Diagnostics`; the nil slice is the empty list. -/
abbrev Diagnostics := List Diagnostic

/-- The method `hcl.Diagnostics.HasErrors`: some entry has severity `DiagError`. -/
def Diagnostics.HasErrors (diags : Diagnostics) : Bool :=
  diags.any (fun d => d.severity == DiagnosticSeverity.DiagError)

/-- An `hcl.Traverser`: the accessed key and the source range returned by `SourceRange()`. -/
structure Traverser where
  key : String
  SourceRange : Range
  deriving DecidableEq, Repr, Inhabited

/-- The `seen` argument (`map[Type]struct{}`): `none` is the nil map, otherwise the addresses of
the types already visited. -/
abbrev Seen := Option (List Nat)

/-- The struct `DiscriminatedUnionType`; `addr` is the address of the instance. -/
structure DiscriminatedUnionType (Obj : Type) where
  addr : Nat
  Discriminator : String
  Mapping : List (String × Obj)
  s : String

/-- The values of the interface `Type` that this file handles: the two singletons `DynamicType`
and `NoneType`, a member (`*ObjectType`), a discriminated union, a plain union and any other
named type. -/
inductive Ty (Obj : Type) where
  | DynamicType
  | NoneType
  | object (o : Obj)
  | discriminatedUnion (u : DiscriminatedUnionType Obj)
  | union (elementTypes : List (Ty Obj))
  | named (name : String)

namespace Ty

variable {Obj : Type}

/-- The comparison `ty == NoneType` with the singleton. -/
def isNoneType : Ty Obj → Bool
  | NoneType => true
  | _ => false

/-- The comparison `ty == DynamicType` with the singleton. -/
def isDynamicType : Ty Obj → Bool
  | DynamicType => true
  | _ => false

/-- The type assertion `ty.(*ObjectType)`; `none` when it does not hold. -/
def asObject : Ty Obj → Option Obj
  | object o => some o
  | _ => none

end Ty

/-- What the file calls and does not define: the methods of the members (`*ObjectType`), the
methods of a destination type, the shared combinators, `NewUnionType` and the constructor of the
`UnsupportedReceiverType` diagnostic. -/
structure Collaborators (Obj : Type) where
  /-- The call `member.equals(other, seen)`, where `other` is the result of a map lookup:
  the argument `none` is the nil member of a missing key, and the result `none` is an abort
  of the call (the dereference of a nil pointer). -/
  objEquals : Obj → Option Obj → Seen → Option Bool
  /-- The call `member.Traverse(traverser)`; the traversable it returns is a `Type`. -/
  objTraverse : Obj → Traverser → Ty Obj × Diagnostics
  /-- The call `member.AssignableFrom(src)`. -/
  objAssignableFrom : Obj → Ty Obj → Bool
  /-- The call `member.conversionFrom(src, unifying, seen)`. -/
  objConversionFrom : Obj → Ty Obj → Bool → Seen → ConversionKind
  /-- The call `dest.conversionFrom(member, unifying, seen)`. -/
  destConversionFrom : Ty Obj → Obj → Bool → Seen → ConversionKind
  /-- The call `member.unify(other)`. -/
  objUnify : Obj → Ty Obj → Ty Obj × ConversionKind
  /-- The call `member.string(seen)`. -/
  objString : Obj → Seen → String
  /-- The constructor `NewUnionType(types...)`. -/
  NewUnionType : List (Ty Obj) → Ty Obj
  /-- The constructor `unsupportedReceiverType(receiver, range)`. -/
  unsupportedReceiverType : Ty Obj → Range → Diagnostic
  /-- The combinator `assignableFrom(dest, src, fallback)`. -/
  assignableFrom : Ty Obj → Ty Obj → (Unit → Bool) → Bool
  /-- The combinator `conversionFrom(dest, src, unifying, seen, fallback)`. -/
  conversionFrom : Ty Obj → Ty Obj → Bool → Seen → (Unit → ConversionKind) → ConversionKind
  /-- The combinator `unify(t, other, fallback)`; `none` is a fatal abort of the fallback. -/
  unify : Ty Obj → Ty Obj → (Unit → Option (Ty Obj × ConversionKind)) →
    Option (Ty Obj × ConversionKind)

namespace DiscriminatedUnionType

variable {Obj : Type}

/-- The keys of the mapping, in iteration order. -/
def keys (t : DiscriminatedUnionType Obj) : List String :=
  t.Mapping.map Prod.fst

/-- The comparison `t == other` of the receiver with an interface value: `other` holds a
discriminated union with the same address. -/
def sameInstance (t : DiscriminatedUnionType Obj) : Ty Obj → Bool
  | Ty.discriminatedUnion u => t.addr == u.addr
  | _ => false

/-- The loop of `equals`: each member of the receiver is compared with the member that the other
mapping holds under the same key (the nil member when the key is missing), and the first
mismatch returns false; `none` is an abort of a member comparison. -/
def equalsLoop (C : Collaborators Obj) (otherMapping : List (String × Obj)) (seen : Seen) :
    List (String × Obj) → Option Bool
  | [] => some true
  | (i, m) :: rest =>
    match C.objEquals m (otherMapping.lookup i) seen with
    | none => none
    | some b => if !b then some false else equalsLoop C otherMapping seen rest

/-- The method `equals(other, seen)`; `none` is an abort of a member comparison. -/
def equals (C : Collaborators Obj) (t : DiscriminatedUnionType Obj) (other : Ty Obj)
    (seen : Seen) : Option Bool :=
  if t.sameInstance other then some true
  else
    match other with
    | Ty.discriminatedUnion otherUnion =>
      if t.Discriminator != otherUnion.Discriminator then some false
      else if t.Mapping.length != otherUnion.Mapping.length then some false
      else equalsLoop C otherUnion.Mapping seen t.Mapping
    | _ => some false

/-- The method `Equals(other)`: `equals` with the nil `seen` map. -/
def Equals (C : Collaborators Obj) (t : DiscriminatedUnionType Obj) (other : Ty Obj) :
    Option Bool :=
  t.equals C other none

/-- The loop of `Traverse`: every member is traversed, and the result of a member whose
diagnostics have no error is appended to `types`. -/
def traverseLoop (C : Collaborators Obj) (traverser : Traverser) :
    List (Ty Obj) → List (String × Obj) → List (Ty Obj)
  | types, [] => types
  | types, (_, m) :: rest =>
    let r := C.objTraverse m traverser
    if !r.2.HasErrors then traverseLoop C traverser (types ++ [r.1]) rest
    else traverseLoop C traverser types rest

/-- The method `Traverse(traverser)`. -/
def Traverse (C : Collaborators Obj) (t : DiscriminatedUnionType Obj) (traverser : Traverser) :
    Ty Obj × Diagnostics :=
  match traverseLoop C traverser [] t.Mapping with
  | [] =>
    (Ty.DynamicType,
      [C.unsupportedReceiverType (Ty.discriminatedUnion t) traverser.SourceRange])
  | [ty] =>
    if ty.isNoneType then
      (Ty.DynamicType,
        [C.unsupportedReceiverType (Ty.discriminatedUnion t) traverser.SourceRange])
    else (ty, [])
  | ty :: ty2 :: types => (C.NewUnionType (ty :: ty2 :: types), [])

/-- The results of the member traversals that succeed (their diagnostics have no error), in
iteration order. -/
def successes (C : Collaborators Obj) (traverser : Traverser) (mapping : List (String × Obj)) :
    List (Ty Obj) :=
  mapping.filterMap (fun e =>
    if (C.objTraverse e.2 traverser).2.HasErrors then none
    else some (C.objTraverse e.2 traverser).1)

/-- The fallback of `AssignableFrom`: some member is assignable from `src`. -/
def assignableFromLoop (C : Collaborators Obj) (src : Ty Obj) : List (String × Obj) → Bool
  | [] => false
  | (_, m) :: rest =>
    if C.objAssignableFrom m src then true else assignableFromLoop C src rest

/-- The method `AssignableFrom(src)`. -/
def AssignableFrom (C : Collaborators Obj) (t : DiscriminatedUnionType Obj) (src : Ty Obj) :
    Bool :=
  C.assignableFrom (Ty.discriminatedUnion t) src (fun _ => assignableFromLoop C src t.Mapping)

/-- The loop of the fallback of `conversionFrom`: a member whose kind is greater than the kind
kept so far replaces it. -/
def conversionFromLoop (C : Collaborators Obj) (src : Ty Obj) (unifying : Bool) (seen : Seen) :
    ConversionKind → List (String × Obj) → ConversionKind
  | conversionKind, [] => conversionKind
  | conversionKind, (_, m) :: rest =>
    let ck := C.objConversionFrom m src unifying seen
    if ck.rank > conversionKind.rank then conversionFromLoop C src unifying seen ck rest
    else conversionFromLoop C src unifying seen conversionKind rest

/-- The fallback closure of `conversionFrom`; the kind starts at the zero value. -/
def conversionFromFallback (C : Collaborators Obj) (t : DiscriminatedUnionType Obj)
    (src : Ty Obj) (unifying : Bool) (seen : Seen) : ConversionKind :=
  conversionFromLoop C src unifying seen ConversionKind.NoConversion t.Mapping

/-- The method `conversionFrom(src, unifying, seen)`. -/
def conversionFrom (C : Collaborators Obj) (t : DiscriminatedUnionType Obj) (src : Ty Obj)
    (unifying : Bool) (seen : Seen) : ConversionKind :=
  C.conversionFrom (Ty.discriminatedUnion t) src unifying seen
    (fun _ => conversionFromFallback C t src unifying seen)

/-- The method `ConversionFrom(src)`. -/
def ConversionFrom (C : Collaborators Obj) (t : DiscriminatedUnionType Obj) (src : Ty Obj) :
    ConversionKind :=
  t.conversionFrom C src false none

/-- The loop of `conversionTo` over the pair `(conversionKind, exists)`. -/
def conversionToLoop (C : Collaborators Obj) (dest : Ty Obj) (unifying : Bool) (seen : Seen) :
    ConversionKind × Bool → List (String × Obj) → ConversionKind × Bool
  | st, [] => st
  | (conversionKind, ex), (_, m) :: rest =>
    match C.destConversionFrom dest m unifying seen with
    | ConversionKind.SafeConversion =>
      conversionToLoop C dest unifying seen (conversionKind, true) rest
    | ConversionKind.UnsafeConversion =>
      conversionToLoop C dest unifying seen (ConversionKind.UnsafeConversion, true) rest
    | ConversionKind.NoConversion =>
      conversionToLoop C dest unifying seen (ConversionKind.UnsafeConversion, ex) rest

/-- The method `conversionTo(dest, unifying, seen)`. -/
def conversionTo (C : Collaborators Obj) (t : DiscriminatedUnionType Obj) (dest : Ty Obj)
    (unifying : Bool) (seen : Seen) : ConversionKind :=
  let st := conversionToLoop C dest unifying seen (ConversionKind.SafeConversion, false) t.Mapping
  if !st.2 then ConversionKind.NoConversion else st.1

/-- The assignment `mapping[n] = o` on a Go map: the entry under `n` is replaced when there is
one, otherwise a new entry is added. -/
def mapSet (mapping : List (String × Obj)) (n : String) (o : Obj) : List (String × Obj) :=
  if mapping.any (fun e => e.1 == n) then
    mapping.map (fun e => if e.1 == n then (n, o) else e)
  else mapping ++ [(n, o)]

/-- The constructor `NewDiscriminatedUnionType(discriminator, mapping)`; `addr` is the address
of the instance it allocates. -/
def NewDiscriminatedUnionType (addr : Nat) (discriminator : String)
    (mapping : List (String × Obj)) : Ty Obj :=
  Ty.discriminatedUnion { addr := addr, Discriminator := discriminator, Mapping := mapping, s := "" }

/-- The loop of `unifyTo` over the pair `(mapping, conversionKind)`; `none` is the abort of the
type assertion `element.(*ObjectType)`. -/
def unifyToLoop (C : Collaborators Obj) (other : Ty Obj) :
    List (String × Obj) × ConversionKind → List (String × Obj) →
      Option (List (String × Obj) × ConversionKind)
  | st, [] => some st
  | (mapping, conversionKind), (n, m) :: rest =>
    let r := C.objUnify m other
    let conversionKind2 := if r.2.rank < conversionKind.rank then r.2 else conversionKind
    match r.1.asObject with
    | none => none
    | some o => unifyToLoop C other (mapSet mapping n o, conversionKind2) rest

/-- The method `unifyTo(other)`; `newAddr` is the address of the union it allocates and `none`
is the abort of the type assertion. -/
def unifyTo (C : Collaborators Obj) (t : DiscriminatedUnionType Obj) (other : Ty Obj)
    (newAddr : Nat) : Option (Ty Obj × ConversionKind) :=
  match unifyToLoop C other ([], ConversionKind.SafeConversion) t.Mapping with
  | none => none
  | some (mapping, conversionKind) =>
    some (NewDiscriminatedUnionType newAddr t.Discriminator mapping, conversionKind)

/-- The method `unify(other)`. -/
def unify (C : Collaborators Obj) (t : DiscriminatedUnionType Obj) (other : Ty Obj)
    (newAddr : Nat) : Option (Ty Obj × ConversionKind) :=
  C.unify (Ty.discriminatedUnion t) other (fun _ => t.unifyTo C other newAddr)

/-- The loop of `string`: one item `key=member` per entry of the mapping. -/
def stringLoop (C : Collaborators Obj) (seen : Seen) :
    List String → List (String × Obj) → List String
  | items, [] => items
  | items, (n, e) :: rest => stringLoop C seen (items ++ [n ++ "=" ++ C.objString e seen]) rest

/-- The method `string(seen)`: the string it returns and the instance after the call, whose
field `s` holds the memoized string. -/
def string (C : Collaborators Obj) (t : DiscriminatedUnionType Obj) (seen : Seen) :
    String × DiscriminatedUnionType Obj :=
  if t.s == "" then
    let items := stringLoop C seen [] t.Mapping
    let s := "discriminated_union(" ++ t.Discriminator ++ ", " ++ ", ".intercalate items ++ ")"
    (s, { t with s := s })
  else (t.s, t)

end DiscriminatedUnionType

/-! ## A sample instantiation of the collaborators

Object types are lists of `(property, type name)` pairs; it is used to evaluate the methods on
concrete unions. -/

namespace Sample

/-- A sample object type: its properties and the names of their types. -/
abbrev Object := List (String × String)

/-- The type of a property: the name `none` stands for `NoneType`. -/
def propertyType (name : String) : Ty Object :=
  if name == "none" then Ty.NoneType else Ty.named name

/-- Sample member equality: the properties of the other member are read, which aborts on the
nil member, and compared with the properties of the receiver. -/
def objEquals (o : Object) (other : Option Object) (_seen : Seen) : Option Bool :=
  match other with
  | none => none
  | some p => some (o == p)

/-- Sample member traversal: the type of the property named by the traverser, or an error. -/
def objTraverse (o : Object) (traverser : Traverser) : Ty Object × Diagnostics :=
  match o.lookup traverser.key with
  | some name => (propertyType name, [])
  | none =>
    (Ty.DynamicType,
      [{ severity := DiagnosticSeverity.DiagError, summary := "unsupported attribute",
         subject := traverser.SourceRange }])

/-- Sample identity of two types that are not unions. -/
def sameType : Ty Object → Ty Object → Bool
  | Ty.DynamicType, Ty.DynamicType => true
  | Ty.NoneType, Ty.NoneType => true
  | Ty.object o, Ty.object p => o == p
  | Ty.named a, Ty.named b => a == b
  | _, _ => false

/-- Sample member assignability. -/
def objAssignableFrom (o : Object) (src : Ty Object) : Bool :=
  sameType (Ty.object o) src || src.isDynamicType

/-- Sample conversion between an object type and another type. -/
def conversion (dest src : Ty Object) : ConversionKind :=
  if sameType dest src || dest.isDynamicType then ConversionKind.SafeConversion
  else if src.isDynamicType then ConversionKind.UnsafeConversion
  else
    match dest, src with
    | Ty.object o, Ty.object p =>
      if p.all (fun e => o.contains e) then ConversionKind.UnsafeConversion
      else ConversionKind.NoConversion
    | _, _ => ConversionKind.NoConversion

/-- Sample member unification: the same object type unifies safely, two object types unify
unsafely to the object type with the properties of both, the dynamic type selects the member,
and any other type yields the plain union of the two. -/
def objUnify (o : Object) (other : Ty Object) : Ty Object × ConversionKind :=
  match other with
  | Ty.object p =>
    if o == p then (Ty.object o, ConversionKind.SafeConversion)
    else (Ty.object (o ++ p), ConversionKind.UnsafeConversion)
  | Ty.DynamicType => (Ty.object o, ConversionKind.UnsafeConversion)
  | _ => (Ty.union [Ty.object o, other], ConversionKind.SafeConversion)

/-- Sample display of an object type. -/
def objString (o : Object) (_seen : Seen) : String :=
  "object(" ++ ", ".intercalate (o.map (fun e => e.1 ++ "=" ++ e.2)) ++ ")"

/-- The element types of a type: those of a plain union, or the type itself. -/
def elementTypes : Ty Object → List (Ty Object)
  | Ty.union es => es
  | ty => [ty]

/-- The list without the elements that repeat an earlier one. -/
def distinct : List (Ty Object) → List (Ty Object) → List (Ty Object)
  | acc, [] => acc
  | acc, ty :: rest =>
    if acc.any (fun u => sameType u ty) then distinct acc rest else distinct (acc ++ [ty]) rest

/-- Sample plain-union constructor: nested unions are replaced with their element types,
repeated element types are dropped, and a single remaining element type is returned as is. -/
def NewUnionType (types : List (Ty Object)) : Ty Object :=
  match distinct [] (types.flatMap elementTypes) with
  | [ty] => ty
  | es => Ty.union es

/-- Sample `UnsupportedReceiverType` diagnostic. -/
def unsupportedReceiverType (_receiver : Ty Object) (range : Range) : Diagnostic :=
  { severity := DiagnosticSeverity.DiagError, summary := "unsupported receiver type",
    subject := range }

/-- Sample identity of a destination with a source, discriminated unions included. -/
def identical (dest src : Ty Object) : Bool :=
  match dest, src with
  | Ty.discriminatedUnion t, Ty.discriminatedUnion u => t.addr == u.addr
  | _, _ => sameType dest src

/-- Sample `assignableFrom` combinator: identity and the dynamic type short-circuit. -/
def assignableFrom (dest src : Ty Object) (fallback : Unit → Bool) : Bool :=
  if identical dest src || dest.isDynamicType || src.isDynamicType then true else fallback ()

/-- Sample `conversionFrom` combinator: identity and the dynamic type short-circuit, a plain
union as source is not handled by the fallback. -/
def conversionFrom (dest src : Ty Object) (_unifying : Bool) (_seen : Seen)
    (fallback : Unit → ConversionKind) : ConversionKind :=
  if identical dest src || dest.isDynamicType then ConversionKind.SafeConversion
  else
    match src with
    | Ty.union _ => ConversionKind.UnsafeConversion
    | Ty.DynamicType => ConversionKind.UnsafeConversion
    | _ => fallback ()

/-- Sample `unify` combinator: identical types unify safely, otherwise the fallback decides. -/
def unify (t other : Ty Object) (fallback : Unit → Option (Ty Object × ConversionKind)) :
    Option (Ty Object × ConversionKind) :=
  if identical t other then some (t, ConversionKind.SafeConversion) else fallback ()

/-- The sample collaborators. -/
def collaborators : Collaborators Object where
  objEquals := objEquals
  objTraverse := objTraverse
  objAssignableFrom := objAssignableFrom
  objConversionFrom := fun o src _ _ => conversion (Ty.object o) src
  destConversionFrom := fun dest o _ _ => conversion dest (Ty.object o)
  objUnify := objUnify
  objString := objString
  NewUnionType := NewUnionType
  unsupportedReceiverType := unsupportedReceiverType
  assignableFrom := assignableFrom
  conversionFrom := conversionFrom
  unify := unify

/-- The object type `{name: string}`. -/
def named : Object := [("name", "string")]

/-- The object type `{name: string, age: int}`. -/
def aged : Object := [("name", "string"), ("age", "int")]

/-- The object type `{gone: none}`. -/
def gone : Object := [("gone", "none")]

/-- The union `{"a": named, "b": aged}` on the discriminator `kind`. -/
def unionAB : DiscriminatedUnionType Object :=
  { addr := 1, Discriminator := "kind", Mapping := [("a", named), ("b", aged)], s := "" }

/-- The union `{"a": named, "c": aged}` on the discriminator `kind`. -/
def unionAC : DiscriminatedUnionType Object :=
  { addr := 2, Discriminator := "kind", Mapping := [("a", named), ("c", aged)], s := "" }

/-- The union `{"b": aged, "a": named}`: the entries of `unionAB` in the other order. -/
def unionBA : DiscriminatedUnionType Object :=
  { addr := 3, Discriminator := "kind", Mapping := [("b", aged), ("a", named)], s := "" }

/-- The union `{"x": gone, "y": gone}`: both members have the property `gone` of type none. -/
def unionGone : DiscriminatedUnionType Object :=
  { addr := 4, Discriminator := "kind", Mapping := [("x", gone), ("y", gone)], s := "" }

/-- The union `{"x": gone}`. -/
def unionGoneOne : DiscriminatedUnionType Object :=
  { addr := 5, Discriminator := "kind", Mapping := [("x", gone)], s := "" }

/-- A traverser for the attribute `key`. -/
def attr (key : String) : Traverser :=
  { key := key, SourceRange := { filename := "main.pp", start := 10, stop := 14 } }

/-- The object type `{age: int}`. -/
def cat : Object := [("age", "int")]

/-- The object type `{breed: string}`. -/
def dog : Object := [("breed", "string")]

/-- The union `{"cat": {age: int}, "dog": {breed: string}}`. -/
def unionCatDog : DiscriminatedUnionType Object :=
  { addr := 6, Discriminator := "kind", Mapping := [("cat", cat), ("dog", dog)], s := "" }

/-- The object type `{value: int}`. -/
def valueInt : Object := [("value", "int")]

/-- The object type `{value: string}`. -/
def valueString : Object := [("value", "string")]

/-- The union `{"i": {value: int}, "s": {value: string}}`. -/
def unionValue : DiscriminatedUnionType Object :=
  { addr := 7, Discriminator := "kind", Mapping := [("i", valueInt), ("s", valueString)],
    s := "" }

/-- A union with an empty mapping. -/
def unionEmpty : DiscriminatedUnionType Object :=
  { addr := 8, Discriminator := "kind", Mapping := [], s := "" }

end Sample

end Model

/-! ## The YAML file AST of `sdk/go/common/encoding/ast.go`

The nodes are those of the YAML library (`ast.File`, `ast.DocumentNode`, `ast.MappingNode`,
`ast.MappingValueNode`, `ast.StringNode`), reduced to what `SetConfig`, `DeleteConfig` and
`walk` read and write. The methods change the AST in place through pointers; here they return
the AST after the call, in which the mapping reached by the key path is replaced. -/

namespace Encoding

/-- The key of a mapping entry: the string that `Key.String()` returns and the column of its
token. -/
structure KeyNode where
  text : String
  Column : Nat
  deriving DecidableEq, Repr, Inhabited

/-- A YAML node: an `*ast.MappingNode` with its `Values`; an `*ast.MappingValueNode` standing
as a node, which is what the parser builds for a mapping with one entry; a string node with its
value and the column of its token; or any other node. -/
inductive Node where
  | MappingNode (Values : List (KeyNode × Node))
  | MappingValueNode (Key : KeyNode) (Value : Node)
  | StringNode (Value : String) (Column : Nat)
  | OtherNode (text : String)

/-- An `ast.MappingValueNode`: its `Key` and its `Value`. -/
abbrev MappingValueNode := KeyNode × Node

/-- An `ast.DocumentNode` with its `Body`. -/
structure DocumentNode where
  Body : Node

/-- The struct `FileAST`: the documents of the parsed file. -/
structure FileAST where
  Docs : List DocumentNode

/-- The errors that the file builds: `fmt.Errorf("config key not found: %q", key)` and
`errors.Wrap(err, message)`. -/
inductive Error where
  | configKeyNotFound (key : String)
  | wrap (cause : Error) (message : String)
  deriving DecidableEq, Repr

/-- The outcome of a call that may return an error or abort on a failed type assertion. -/
inductive Outcome (α : Type) where
  | ok (a : α)
  | error (e : Error)
  | abort

/-- The function `newStringNode(s, column)`. -/
def newStringNode (s : String) (column : Nat) : Node :=
  Node.StringNode s column

/-- The function `newMappingValueNode(k, v, col)`; the string of the new key is `k`. -/
def newMappingValueNode (k v : String) (col : Nat) : MappingValueNode :=
  ({ text := k, Column := col }, Node.StringNode v col)

/-- The function `walk(node, key)` on the `Values` of `node`: the `Values` of the mapping under
the first entry whose key is `key`; the type assertion `v.Value.(*ast.MappingNode)` on the value
of that entry aborts when it is not an `*ast.MappingNode`. -/
def walk : List MappingValueNode → String → Outcome (List MappingValueNode)
  | [], key => Outcome.error (Error.configKeyNotFound key)
  | (k, v) :: rest, key =>
    if k.text == key then
      match v with
      | Node.MappingNode values => Outcome.ok values
      | _ => Outcome.abort
    else walk rest key

/-- The loop `for _, path := range paths` of `SetConfig` and `DeleteConfig`; an error of `walk`
is wrapped with `message`. -/
def walkPaths (message : String) :
    List MappingValueNode → List String → Outcome (List MappingValueNode)
  | node, [] => Outcome.ok node
  | node, path :: paths =>
    match walk node path with
    | Outcome.ok next => walkPaths message next paths
    | Outcome.error e => Outcome.error (Error.wrap e message)
    | Outcome.abort => Outcome.abort

/-- The list of entries in which the value of the first entry whose key is `key` is `f` of
its value. -/
def replaceFirst (key : String) (f : Node → Node) : List MappingValueNode → List MappingValueNode
  | [] => []
  | (k, v) :: rest =>
    if k.text == key then (k, f v) :: rest else (k, v) :: replaceFirst key f rest

/-- The AST after an assignment `node.Values = values` to the mapping that the loop over `paths`
reaches from `root`. -/
def store : List String → List MappingValueNode → List MappingValueNode → List MappingValueNode
  | [], _, values => values
  | path :: paths, root, values =>
    replaceFirst path
      (fun child =>
        match child with
        | Node.MappingNode childValues => Node.MappingNode (store paths childValues values)
        | other => other)
      root

/-- The pieces of a list of characters between the occurrences of `sep`. -/
def splitChars (sep : Char) : List Char → List (List Char)
  | [] => [[]]
  | c :: cs =>
    if c == sep then [] :: splitChars sep cs
    else
      match splitChars sep cs with
      | [] => [[c]]
      | piece :: pieces => (c :: piece) :: pieces

/-- The function `strings.Split(s, sep)` for a separator of one character. -/
def Split (s : String) (sep : Char) : List String :=
  (splitChars sep s.data).map String.mk

/-- The paths of a key path: `strings.Split(keyPath, ".")` when the key path is not empty. -/
def splitKeyPath (keyPath : String) : List String :=
  if keyPath.utf8ByteSize > 0 then Split keyPath '.' else []

/-- The update loop of `SetConfig`: the value of the first entry whose key is `key` becomes the
new string node; `none` when no entry has the key. -/
def updateValue (key value : String) (column : Nat) :
    List MappingValueNode → Option (List MappingValueNode)
  | [] => none
  | (k, v) :: rest =>
    if k.text == key then some ((k, newStringNode value column) :: rest)
    else (updateValue key value column rest).map (fun r => (k, v) :: r)

/-- The method `SetConfig(keyPath, key, value, column)`: the error it returns (`none` is nil)
and the AST after the call; the outer `none` is an abort on a failed type assertion. -/
def SetConfig (f : FileAST) (keyPath key value : String) (column : Nat) :
    Option (Option Error × FileAST) :=
  match f.Docs with
  | [] => some (none, f)
  | doc :: docs =>
    match doc.Body with
    | Node.MappingNode root =>
      match walkPaths "failed to set config" root (splitKeyPath keyPath) with
      | Outcome.error e => some (some e, f)
      | Outcome.abort => none
      | Outcome.ok node =>
        let values :=
          match updateValue key value column node with
          | some updated => updated
          | none => node ++ [newMappingValueNode key value column]
        some (none,
          { Docs := { Body := Node.MappingNode (store (splitKeyPath keyPath) root values) }
              :: docs })
    | _ => none

/-- The removal loop of `DeleteConfig`: the entries without the first entry whose key is `key`;
`none` when no entry has the key. -/
def removeValue (key : String) : List MappingValueNode → Option (List MappingValueNode)
  | [] => none
  | (k, v) :: rest =>
    if k.text == key then some rest
    else (removeValue key rest).map (fun r => (k, v) :: r)

/-- The method `DeleteConfig(keyPath, key)`: the error it returns (`none` is nil) and the AST
after the call; the outer `none` is an abort on a failed type assertion. -/
def DeleteConfig (f : FileAST) (keyPath key : String) : Option (Option Error × FileAST) :=
  match f.Docs with
  | [] => some (none, f)
  | doc :: docs =>
    match doc.Body with
    | Node.MappingNode root =>
      match walkPaths "failed to delete config" root (splitKeyPath keyPath) with
      | Outcome.error e => some (some e, f)
      | Outcome.abort => none
      | Outcome.ok node =>
        match removeValue key node with
        | some values =>
          some (none,
            { Docs := { Body := Node.MappingNode (store (splitKeyPath keyPath) root values) }
                :: docs })
        | none => some (none, f)
    | _ => none

/-- The AST `root2` differs from `root` only in the mapping that `paths` reaches: at every step
of the path the entries before and after the entry that is followed are the same, the key of
that entry is the same, and at the end of the path the mapping `node` is replaced by `node2`. -/
inductive ChangedOnlyAt :
    List String → List MappingValueNode → List MappingValueNode →
      List MappingValueNode → List MappingValueNode → Prop where
  | here (node node2 : List MappingValueNode) : ChangedOnlyAt [] node node2 node node2
  | step (path : String) (paths : List String) (before after : List MappingValueNode)
      (k : KeyNode) (child child2 node node2 : List MappingValueNode)
      (hbefore : ∀ e ∈ before, e.1.text ≠ path) (hkey : k.text = path)
      (hchild : ChangedOnlyAt paths child child2 node node2) :
      ChangedOnlyAt (path :: paths)
        (before ++ (k, Node.MappingNode child) :: after)
        (before ++ (k, Node.MappingNode child2) :: after) node node2

/-- The `Values` of the mapping `{a: 1, b: 2, a: 3}`. -/
def sampleConfig : List MappingValueNode :=
  [({ text := "a", Column := 3 }, Node.StringNode "1" 6),
   ({ text := "b", Column := 3 }, Node.StringNode "2" 6),
   ({ text := "a", Column := 3 }, Node.StringNode "3" 6)]

/-- The `Values` of the mapping with the entries `name: demo` and `config: {a: 1, b: 2, a: 3}`. -/
def sampleRoot : List MappingValueNode :=
  [({ text := "name", Column := 1 }, Node.StringNode "demo" 7),
   ({ text := "config", Column := 1 }, Node.MappingNode sampleConfig)]

/-- A sample file: one document whose body is the mapping `sampleRoot`. -/
def sampleFile : FileAST :=
  { Docs := [{ Body := Node.MappingNode sampleRoot }] }

/-- The `Values` of the mapping with the entries `top: {name: demo, config: {a: 1, b: 2, a: 3}}`
and `other: x`. -/
def sampleTop : List MappingValueNode :=
  [({ text := "top", Column := 1 }, Node.MappingNode sampleRoot),
   ({ text := "other", Column := 1 }, Node.StringNode "x" 8)]

/-- A sample file: one document whose body is the mapping `sampleTop`. -/
def sampleNestedFile : FileAST :=
  { Docs := [{ Body := Node.MappingNode sampleTop }] }

/-- The file `a: 1`: the body of its document is a mapping with one entry, which the parser
builds as an `*ast.MappingValueNode`. -/
def sampleOneEntryFile : FileAST :=
  { Docs := [{ Body := Node.MappingValueNode ⟨"a", 1⟩ (Node.StringNode "1" 4) }] }

/-- The `Values` of the mapping with the entries `name: demo` and `config: {a: 1}`, the mapping
under `config` having one entry. -/
def sampleOneEntryRoot : List MappingValueNode :=
  [({ text := "name", Column := 1 }, Node.StringNode "demo" 7),
   ({ text := "config", Column := 1 },
      Node.MappingValueNode ⟨"a", 3⟩ (Node.StringNode "1" 6))]

/-- A sample file: one document whose body is the mapping `sampleOneEntryRoot`. -/
def sampleOneEntryNestedFile : FileAST :=
  { Docs := [{ Body := Node.MappingNode sampleOneEntryRoot }] }

end Encoding

/-! ## Properties of `Equals` -/

namespace Model

namespace DiscriminatedUnionType

variable {Obj : Type}

/-- A map lookup under a key of the mapping returns the member stored under that key. -/
theorem lookup_of_mem {l : List (String × Obj)} (hk : (l.map Prod.fst).Nodup) {k : String}
    {m : Obj} (h : (k, m) ∈ l) : l.lookup k = some m := by
  induction l with
  | nil => cases h
  | cons e rest ih =>
    obtain ⟨k2, m2⟩ := e
    simp only [List.map_cons, List.nodup_cons] at hk
    rcases List.mem_cons.1 h with heq | hmem
    · cases heq
      simp
    · have hne : k ≠ k2 := by
        intro hkk
        apply hk.1
        rw [← hkk]
        exact List.mem_map_of_mem Prod.fst hmem
      rw [List.lookup_cons]
      have hb : (k == k2) = false := by simpa using hne
      rw [hb]
      exact ih hk.2 hmem

/-- A map lookup under a key that the mapping does not hold returns the nil member. -/
theorem lookup_of_not_mem {l : List (String × Obj)} {k : String}
    (h : k ∉ l.map Prod.fst) : l.lookup k = none := by
  rw [List.lookup_eq_none_iff]
  intro p hp
  have hne : k ≠ p.1 := by
    intro hkp
    apply h
    rw [hkp]
    exact List.mem_map_of_mem Prod.fst hp
  simpa using hne

/-- The loop of `equals` returns true exactly when every member comparison returns true, the
member compared with being the one found under the same key in the other mapping. -/
theorem equalsLoop_eq_true_iff (C : Collaborators Obj) (otherMapping : List (String × Obj))
    (seen : Seen) (l : List (String × Obj)) :
    equalsLoop C otherMapping seen l = some true ↔
      ∀ e ∈ l, C.objEquals e.2 (otherMapping.lookup e.1) seen = some true := by
  induction l with
  | nil => simp [equalsLoop]
  | cons e rest ih =>
    obtain ⟨i, m⟩ := e
    simp only [equalsLoop, List.mem_cons, forall_eq_or_imp]
    cases hm : C.objEquals m (otherMapping.lookup i) seen with
    | none => simp
    | some b =>
      cases b
      · simp
      · simpa using ih

/-- Two lists of distinct keys of the same length with different key sets: some key of the first
is missing from the second. -/
theorem exists_key_not_mem {ks1 ks2 : List String} (hk1 : ks1.Nodup)
    (hlen : ks1.length = ks2.length) (hdiff : ¬ ∀ k, k ∈ ks1 ↔ k ∈ ks2) :
    ∃ k, k ∈ ks1 ∧ k ∉ ks2 := by
  by_contra hno
  apply hdiff
  have hsub : ks1 ⊆ ks2 := by
    intro k hk
    by_contra hk2
    exact hno ⟨k, hk, hk2⟩
  have hperm : ks1.Perm ks2 :=
    (List.subperm_of_subset hk1 hsub).perm_of_length_le (le_of_eq hlen.symm)
  intro k
  exact hperm.mem_iff

/-- Two lists of distinct keys with the same key set have the same length. -/
theorem length_eq_of_same_keys {ks1 ks2 : List String} (hk1 : ks1.Nodup) (hk2 : ks2.Nodup)
    (hsame : ∀ k, k ∈ ks1 ↔ k ∈ ks2) : ks1.length = ks2.length :=
  ((List.perm_ext_iff_of_nodup hk1 hk2).2 hsame).length_eq

/-- The slow path of `equals` on two unions with the same discriminator whose members agree
key by key. -/
theorem equals_of_members (C : Collaborators Obj) (U1 U2 : DiscriminatedUnionType Obj)
    (seen : Seen) (hd : U1.Discriminator = U2.Discriminator)
    (hk1 : U1.keys.Nodup) (hk2 : U2.keys.Nodup)
    (h12 : ∀ k m, (k, m) ∈ U1.Mapping →
      ∃ m2, (k, m2) ∈ U2.Mapping ∧ C.objEquals m (some m2) seen = some true)
    (h21 : ∀ k m, (k, m) ∈ U2.Mapping → ∃ m1, (k, m1) ∈ U1.Mapping) :
    U1.equals C (Ty.discriminatedUnion U2) seen = some true := by
  have hsame : ∀ k, k ∈ U1.keys ↔ k ∈ U2.keys := by
    intro k
    constructor
    · intro hk
      obtain ⟨e, he, hek⟩ := List.mem_map.1 hk
      obtain ⟨m2, hm2, _⟩ := h12 e.1 e.2 he
      rw [← hek]
      exact List.mem_map.2 ⟨(e.1, m2), hm2, rfl⟩
    · intro hk
      obtain ⟨e, he, hek⟩ := List.mem_map.1 hk
      obtain ⟨m1, hm1⟩ := h21 e.1 e.2 he
      rw [← hek]
      exact List.mem_map.2 ⟨(e.1, m1), hm1, rfl⟩
  have hlen : U1.Mapping.length = U2.Mapping.length := by
    have h := length_eq_of_same_keys hk1 hk2 hsame
    simpa [keys] using h
  unfold equals
  cases hs : U1.sameInstance (Ty.discriminatedUnion U2)
  · simp only [Bool.false_eq_true, if_false]
    have hdb : (U1.Discriminator != U2.Discriminator) = false := by simp [hd]
    have hlb : (U1.Mapping.length != U2.Mapping.length) = false := by simp [hlen]
    rw [hdb, hlb]
    simp only [Bool.false_eq_true, if_false]
    rw [equalsLoop_eq_true_iff]
    intro e he
    obtain ⟨m2, hm2, heq⟩ := h12 e.1 e.2 he
    rw [lookup_of_mem hk2 hm2]
    exact heq
  · simp

/-- On two instances whose mappings have the same size and different key sets, `equals` reaches
the member comparison with the nil member of a missing key unless an earlier comparison already
returned false: it returns true only if a member comparison with the nil member returns true. -/
theorem equals_of_key_sets_differ (C : Collaborators Obj)
    (U1 U2 : DiscriminatedUnionType Obj) (seen : Seen)
    (hinst : U1.addr ≠ U2.addr)
    (hk1 : U1.keys.Nodup)
    (hlen : U1.Mapping.length = U2.Mapping.length)
    (hdiff : ¬ ∀ k, k ∈ U1.keys ↔ k ∈ U2.keys)
    (htrue : U1.equals C (Ty.discriminatedUnion U2) seen = some true) :
    ∃ e ∈ U1.Mapping, U2.Mapping.lookup e.1 = none ∧ C.objEquals e.2 none seen = some true := by
  obtain ⟨k, hk, hk2⟩ :=
    exists_key_not_mem hk1 (by simpa [keys] using hlen) hdiff
  obtain ⟨e, he, hek⟩ := List.mem_map.1 hk
  have hs : U1.sameInstance (Ty.discriminatedUnion U2) = false := by
    simpa [sameInstance] using hinst
  have hloop : equalsLoop C U2.Mapping seen U1.Mapping = some true := by
    unfold equals at htrue
    rw [hs] at htrue
    simp only [Bool.false_eq_true, if_false] at htrue
    split at htrue
    · cases htrue
    · split at htrue
      · cases htrue
      · exact htrue
  have h := (equalsLoop_eq_true_iff C U2.Mapping seen U1.Mapping).1 hloop e he
  have hnone : U2.Mapping.lookup e.1 = none := by
    rw [hek]
    exact lookup_of_not_mem hk2
  rw [hnone] at h
  exact ⟨e, he, hnone, h⟩

/-- C1: on the unions `{"a": X, "b": Y}` and `{"a": X, "c": Y}`, which have the same
discriminator and two entries each, `Equals` does not return false: the key `b` is missing from
the other mapping, the lookup yields the nil member, and the member comparison with it
aborts. -/
theorem Equals_missing_key_aborts :
    Sample.unionAC.Mapping.lookup "b" = none ∧
      Sample.collaborators.objEquals Sample.aged none none = none ∧
      Sample.unionAB.Equals Sample.collaborators (Ty.discriminatedUnion Sample.unionAC) = none ∧
      Sample.unionAB.Equals Sample.collaborators (Ty.discriminatedUnion Sample.unionAC) ≠
        some false := by
  decide

/-- C2: two discriminated unions with the same discriminator and the same set of
(key, structurally-equal member) pairs are equal in both directions, whatever the order of the
entries of the two mappings and whether or not they are the same instance. -/
theorem Equals_true_of_same_members (C : Collaborators Obj)
    (U1 U2 : DiscriminatedUnionType Obj)
    (hd : U1.Discriminator = U2.Discriminator)
    (hk1 : U1.keys.Nodup) (hk2 : U2.keys.Nodup)
    (h12 : ∀ k m, (k, m) ∈ U1.Mapping →
      ∃ m2, (k, m2) ∈ U2.Mapping ∧ C.objEquals m (some m2) none = some true)
    (h21 : ∀ k m, (k, m) ∈ U2.Mapping →
      ∃ m1, (k, m1) ∈ U1.Mapping ∧ C.objEquals m (some m1) none = some true) :
    U1.Equals C (Ty.discriminatedUnion U2) = some true ∧
      U2.Equals C (Ty.discriminatedUnion U1) = some true :=
  ⟨equals_of_members C U1 U2 none hd hk1 hk2 h12
      (fun k m h => (h21 k m h).imp (fun _ h2 => h2.1)),
    equals_of_members C U2 U1 none hd.symm hk2 hk1 h21
      (fun k m h => (h12 k m h).imp (fun _ h2 => h2.1))⟩

/-- C2, on `{"a": X, "b": Y}` and `{"b": Y, "a": X}`, two instances whose entries are in a
different order. -/
theorem Equals_true_of_same_members_witness :
    Sample.unionAB.Equals Sample.collaborators (Ty.discriminatedUnion Sample.unionBA) =
        some true ∧
      Sample.unionBA.Equals Sample.collaborators (Ty.discriminatedUnion Sample.unionAB) =
        some true :=
  Equals_true_of_same_members Sample.collaborators Sample.unionAB Sample.unionBA rfl
    (by decide) (by decide)
    (by
      intro k m h
      simp only [Sample.unionAB, List.mem_cons, Prod.mk.injEq, List.mem_nil_iff,
        or_false] at h
      rcases h with ⟨rfl, rfl⟩ | ⟨rfl, rfl⟩
      · exact ⟨Sample.named, by decide, by decide⟩
      · exact ⟨Sample.aged, by decide, by decide⟩)
    (by
      intro k m h
      simp only [Sample.unionBA, List.mem_cons, Prod.mk.injEq, List.mem_nil_iff,
        or_false] at h
      rcases h with ⟨rfl, rfl⟩ | ⟨rfl, rfl⟩
      · exact ⟨Sample.aged, by decide, by decide⟩
      · exact ⟨Sample.named, by decide, by decide⟩)

/-! ## Properties of `conversionTo` and `ConversionFrom` -/

/-- The state of the loop of `conversionTo` after the members of `l`: the kind is kept only when
every member converts safely, and `exists` is set as soon as a member converts. -/
theorem conversionToLoop_eq (C : Collaborators Obj) (dest : Ty Obj) (unifying : Bool)
    (seen : Seen) (l : List (String × Obj)) (conversionKind : ConversionKind) (ex : Bool) :
    conversionToLoop C dest unifying seen (conversionKind, ex) l =
      (bif l.all (fun e => C.destConversionFrom dest e.2 unifying seen
            == ConversionKind.SafeConversion) then conversionKind
        else ConversionKind.UnsafeConversion,
       ex || l.any (fun e => C.destConversionFrom dest e.2 unifying seen
            != ConversionKind.NoConversion)) := by
  induction l generalizing conversionKind ex with
  | nil => simp [conversionToLoop]
  | cons e rest ih =>
    obtain ⟨n, m⟩ := e
    have hu : (ConversionKind.UnsafeConversion == ConversionKind.SafeConversion) = false := rfl
    have hn : (ConversionKind.NoConversion == ConversionKind.SafeConversion) = false := rfl
    simp only [conversionToLoop]
    split <;> rename_i hm <;> simp [hm, ih, hu, hn]

/-- The method `conversionTo` as a function of the kinds of the members. -/
theorem conversionTo_eq (C : Collaborators Obj) (t : DiscriminatedUnionType Obj)
    (dest : Ty Obj) (unifying : Bool) (seen : Seen) :
    t.conversionTo C dest unifying seen =
      bif t.Mapping.any (fun e => C.destConversionFrom dest e.2 unifying seen
          != ConversionKind.NoConversion) then
        (bif t.Mapping.all (fun e => C.destConversionFrom dest e.2 unifying seen
            == ConversionKind.SafeConversion) then ConversionKind.SafeConversion
          else ConversionKind.UnsafeConversion)
      else ConversionKind.NoConversion := by
  unfold conversionTo
  rw [conversionToLoop_eq]
  simp only [Bool.false_or]
  cases t.Mapping.any (fun e => C.destConversionFrom dest e.2 unifying seen
          != ConversionKind.NoConversion) <;> simp

/-- C3: `conversionTo` is `NoConversion` when no member converts, `SafeConversion` when there
is a member and every member converts safely, and `UnsafeConversion` in every other case. -/
theorem conversionTo_cases (C : Collaborators Obj) (U : DiscriminatedUnionType Obj)
    (D : Ty Obj) (unifying : Bool) (seen : Seen) :
    ((∀ e ∈ U.Mapping, C.destConversionFrom D e.2 unifying seen = ConversionKind.NoConversion) →
        U.conversionTo C D unifying seen = ConversionKind.NoConversion) ∧
      (U.Mapping ≠ [] →
        (∀ e ∈ U.Mapping,
          C.destConversionFrom D e.2 unifying seen = ConversionKind.SafeConversion) →
        U.conversionTo C D unifying seen = ConversionKind.SafeConversion) ∧
      (¬ (∀ e ∈ U.Mapping,
          C.destConversionFrom D e.2 unifying seen = ConversionKind.NoConversion) →
        ¬ (U.Mapping ≠ [] ∧ ∀ e ∈ U.Mapping,
          C.destConversionFrom D e.2 unifying seen = ConversionKind.SafeConversion) →
        U.conversionTo C D unifying seen = ConversionKind.UnsafeConversion) := by
  rw [conversionTo_eq]
  refine ⟨?_, ?_, ?_⟩
  · intro hno
    have h : U.Mapping.any (fun e => C.destConversionFrom D e.2 unifying seen
        != ConversionKind.NoConversion) = false := by
      rw [List.any_eq_false]
      intro e he
      simp [hno e he]
    rw [h]
    simp
  · intro hne hsafe
    have hall : U.Mapping.all (fun e => C.destConversionFrom D e.2 unifying seen
        == ConversionKind.SafeConversion) = true := by
      rw [List.all_eq_true]
      intro e he
      simp [hsafe e he]
    have hany : U.Mapping.any (fun e => C.destConversionFrom D e.2 unifying seen
        != ConversionKind.NoConversion) = true := by
      cases hm : U.Mapping with
      | nil => exact absurd hm hne
      | cons e rest =>
        have := hsafe e (by rw [hm]; exact List.mem_cons_self e rest)
        simp [this]
    rw [hall, hany]
    simp
  · intro hno hsafe
    have hany : U.Mapping.any (fun e => C.destConversionFrom D e.2 unifying seen
        != ConversionKind.NoConversion) = true := by
      by_contra hc
      apply hno
      intro e he
      by_contra hne
      apply hc
      exact List.any_eq_true.2 ⟨e, he, by simpa using hne⟩
    have hall : U.Mapping.all (fun e => C.destConversionFrom D e.2 unifying seen
        == ConversionKind.SafeConversion) = false := by
      cases ha : U.Mapping.all (fun e => C.destConversionFrom D e.2 unifying seen
        == ConversionKind.SafeConversion)
      · rfl
      · exfalso
        apply hsafe
        constructor
        · intro hnil
          apply hno
          intro e he
          rw [hnil] at he
          cases he
        · intro e he
          have := List.all_eq_true.1 ha e he
          simpa using this
    rw [hall, hany]
    simp

/-- C3, on the union `{"a": {name}, "b": {name, age}}` and the destination `{name}`: the
member `a` converts safely, the member `b` does not convert, and the result is unsafe. -/
theorem conversionTo_cases_witness :
    Sample.unionAB.conversionTo Sample.collaborators (Ty.object Sample.named) false none =
      ConversionKind.UnsafeConversion :=
  (conversionTo_cases Sample.collaborators Sample.unionAB (Ty.object Sample.named) false
    none).2.2
    (fun h => absurd (h ("a", Sample.named) (by decide)) (by decide))
    (fun h => absurd (h.2 ("b", Sample.aged) (by decide)) (by decide))

/-- C4, as stated, fails: in the union `{"a": {name}, "b": {name, age}}` the member `b` does not
convert to the destination `{name}` and the member `a` converts safely, and `conversionTo`
returns `UnsafeConversion`, not `NoConversion`. -/
theorem conversionTo_member_without_conversion_counterexample :
    Sample.collaborators.destConversionFrom (Ty.object Sample.named) Sample.aged false none =
        ConversionKind.NoConversion ∧
      Sample.collaborators.destConversionFrom (Ty.object Sample.named) Sample.named false none =
        ConversionKind.SafeConversion ∧
      Sample.unionAB.conversionTo Sample.collaborators (Ty.object Sample.named) false none =
        ConversionKind.UnsafeConversion ∧
      Sample.unionAB.conversionTo Sample.collaborators (Ty.object Sample.named) false none ≠
        ConversionKind.NoConversion := by
  decide

/-- C4, amended: when some member does not convert at all, `conversionTo` is `NoConversion` if
no member converts, and `UnsafeConversion` if another member converts, safely or unsafely. -/
theorem conversionTo_of_member_without_conversion (C : Collaborators Obj)
    (U : DiscriminatedUnionType Obj) (D : Ty Obj) (unifying : Bool) (seen : Seen)
    (hno : ∃ e ∈ U.Mapping,
      C.destConversionFrom D e.2 unifying seen = ConversionKind.NoConversion) :
    ((∀ e ∈ U.Mapping, C.destConversionFrom D e.2 unifying seen = ConversionKind.NoConversion) →
        U.conversionTo C D unifying seen = ConversionKind.NoConversion) ∧
      ((∃ e ∈ U.Mapping,
          C.destConversionFrom D e.2 unifying seen ≠ ConversionKind.NoConversion) →
        U.conversionTo C D unifying seen = ConversionKind.UnsafeConversion) := by
  rw [conversionTo_eq]
  constructor
  · intro hall
    have h : U.Mapping.any (fun e => C.destConversionFrom D e.2 unifying seen
        != ConversionKind.NoConversion) = false := by
      rw [List.any_eq_false]
      intro e he
      simp [hall e he]
    rw [h]
    rfl
  · rintro ⟨e, he, hne⟩
    obtain ⟨e0, he0, h0⟩ := hno
    have hany : U.Mapping.any (fun e => C.destConversionFrom D e.2 unifying seen
        != ConversionKind.NoConversion) = true :=
      List.any_eq_true.2 ⟨e, he, by simpa using hne⟩
    have hall : U.Mapping.all (fun e => C.destConversionFrom D e.2 unifying seen
        == ConversionKind.SafeConversion) = false := by
      cases ha : U.Mapping.all (fun e => C.destConversionFrom D e.2 unifying seen
        == ConversionKind.SafeConversion)
      · rfl
      · have h1 := List.all_eq_true.1 ha e0 he0
        rw [h0] at h1
        cases h1
    rw [hany, hall]
    rfl

/-- C4, amended, on the union `{"a": {name}, "b": {name, age}}` and the destination `{name}`. -/
theorem conversionTo_of_member_without_conversion_witness :
    Sample.unionAB.conversionTo Sample.collaborators (Ty.object Sample.named) false none =
      ConversionKind.UnsafeConversion :=
  (conversionTo_of_member_without_conversion Sample.collaborators Sample.unionAB
    (Ty.object Sample.named) false none ⟨("b", Sample.aged), by decide, by decide⟩).2
    ⟨("a", Sample.named), by decide, by decide⟩

/-- The loop of the fallback of `conversionFrom` returns an upper bound of the starting kind and
of the kinds of the members, and this bound is the starting kind or the kind of a member. -/
theorem conversionFromLoop_spec (C : Collaborators Obj) (src : Ty Obj) (unifying : Bool)
    (seen : Seen) (l : List (String × Obj)) (ck0 : ConversionKind) :
    ck0.rank ≤ (conversionFromLoop C src unifying seen ck0 l).rank ∧
      (∀ e ∈ l, (C.objConversionFrom e.2 src unifying seen).rank ≤
        (conversionFromLoop C src unifying seen ck0 l).rank) ∧
      (conversionFromLoop C src unifying seen ck0 l = ck0 ∨
        ∃ e ∈ l, C.objConversionFrom e.2 src unifying seen =
          conversionFromLoop C src unifying seen ck0 l) := by
  induction l generalizing ck0 with
  | nil => simp [conversionFromLoop]
  | cons e rest ih =>
    obtain ⟨n, m⟩ := e
    simp only [conversionFromLoop]
    split
    · rename_i hgt
      obtain ⟨h1, h2, h3⟩ := ih (C.objConversionFrom m src unifying seen)
      refine ⟨by omega, ?_, ?_⟩
      · intro e he
        rcases List.mem_cons.1 he with rfl | hmem
        · exact h1
        · exact h2 e hmem
      · right
        rcases h3 with h3 | ⟨e, he, h3⟩
        · exact ⟨(n, m), List.mem_cons_self _ _, h3.symm⟩
        · exact ⟨e, List.mem_cons_of_mem _ he, h3⟩
    · rename_i hgt
      obtain ⟨h1, h2, h3⟩ := ih ck0
      refine ⟨h1, ?_, ?_⟩
      · intro e he
        rcases List.mem_cons.1 he with rfl | hmem
        · show (C.objConversionFrom m src unifying seen).rank ≤ _
          omega
        · exact h2 e hmem
      · rcases h3 with h3 | ⟨e, he, h3⟩
        · exact Or.inl h3
        · exact Or.inr ⟨e, List.mem_cons_of_mem _ he, h3⟩

/-- The rank of a conversion kind is at most the rank of `SafeConversion`, and only
`SafeConversion` reaches it. -/
theorem ConversionKind.eq_safe_of_rank (ck : ConversionKind)
    (h : ConversionKind.SafeConversion.rank ≤ ck.rank) : ck = ConversionKind.SafeConversion := by
  cases ck
  · simp [ConversionKind.rank] at h
  · simp [ConversionKind.rank] at h
  · rfl

/-- C5: when the shared combinator reaches the fallback, `ConversionFrom(S)` is the maximum of
the kinds `member.conversionFrom(S)` in the order `NoConversion < UnsafeConversion <
SafeConversion`: it bounds the kind of every member, it is the kind of some member (or
`NoConversion` for an empty mapping), and it is `SafeConversion` as soon as one member converts
safely, whatever the other members do. -/
theorem ConversionFrom_eq_max (C : Collaborators Obj) (U : DiscriminatedUnionType Obj)
    (S : Ty Obj)
    (hfallback : C.conversionFrom (Ty.discriminatedUnion U) S false none
        (fun _ => conversionFromFallback C U S false none) =
      conversionFromFallback C U S false none) :
    (∀ e ∈ U.Mapping,
        (C.objConversionFrom e.2 S false none).rank ≤ (U.ConversionFrom C S).rank) ∧
      ((U.Mapping = [] ∧ U.ConversionFrom C S = ConversionKind.NoConversion) ∨
        ∃ e ∈ U.Mapping, C.objConversionFrom e.2 S false none = U.ConversionFrom C S) ∧
      ((∃ e ∈ U.Mapping,
          C.objConversionFrom e.2 S false none = ConversionKind.SafeConversion) →
        U.ConversionFrom C S = ConversionKind.SafeConversion) := by
  have heq : U.ConversionFrom C S =
      conversionFromLoop C S false none ConversionKind.NoConversion U.Mapping := by
    unfold ConversionFrom conversionFrom
    rw [hfallback]
    rfl
  obtain ⟨_, h2, h3⟩ :=
    conversionFromLoop_spec C S false none U.Mapping ConversionKind.NoConversion
  rw [heq]
  refine ⟨h2, ?_, ?_⟩
  · rcases h3 with h3 | h3
    · cases hm : U.Mapping with
      | nil => left; exact ⟨rfl, by simp [conversionFromLoop]⟩
      | cons e rest =>
        right
        rw [hm] at h2 h3
        have hle := h2 e (List.mem_cons_self _ _)
        rw [h3] at hle
        refine ⟨e, List.mem_cons_self _ _, ?_⟩
        rw [h3]
        cases hc : C.objConversionFrom e.2 S false none
        · rfl
        · rw [hc] at hle
          simp [ConversionKind.rank] at hle
        · rw [hc] at hle
          simp [ConversionKind.rank] at hle
    · exact Or.inr h3
  · rintro ⟨e, he, hsafe⟩
    apply ConversionKind.eq_safe_of_rank
    rw [← hsafe]
    exact h2 e he

/-- C5, on the union `{"a": {name}, "b": {name, age}}` and the source `{name, age}`: the member
`a` does not convert from it, the member `b` converts safely, and the result is safe. -/
theorem ConversionFrom_eq_max_witness :
    Sample.collaborators.objConversionFrom Sample.named (Ty.object Sample.aged) false none =
        ConversionKind.NoConversion ∧
      Sample.unionAB.ConversionFrom Sample.collaborators (Ty.object Sample.aged) =
        ConversionKind.SafeConversion :=
  ⟨by decide,
    (ConversionFrom_eq_max Sample.collaborators Sample.unionAB (Ty.object Sample.aged) rfl).2.2
      ⟨("b", Sample.aged), by decide, by decide⟩⟩

/-! ## Properties of `unifyTo` -/

/-- Assigning a key that the map does not hold adds one entry. -/
theorem mapSet_of_not_mem (mapping : List (String × Obj)) (n : String) (o : Obj)
    (h : n ∉ mapping.map Prod.fst) : mapSet mapping n o = mapping ++ [(n, o)] := by
  have hany : mapping.any (fun e => e.1 == n) = false := by
    rw [List.any_eq_false]
    intro e he
    have hne : e.1 ≠ n := by
      intro heq
      apply h
      rw [← heq]
      exact List.mem_map_of_mem Prod.fst he
    simpa using hne
  simp [mapSet, hany]

/-- The loop of `unifyTo` when every member unification yields an object type: it ends, the
entries it adds follow the entries of the mapping one by one, and the kind it returns is the
minimum of the starting kind and of the kinds of the member unifications. -/
theorem unifyToLoop_spec (C : Collaborators Obj) (other : Ty Obj) (l : List (String × Obj))
    (acc : List (String × Obj)) (ck0 : ConversionKind)
    (hk : (l.map Prod.fst).Nodup)
    (hdisj : ∀ k ∈ l.map Prod.fst, k ∉ acc.map Prod.fst)
    (hobj : ∀ e ∈ l, ∃ o, (C.objUnify e.2 other).1 = Ty.object o) :
    ∃ rs ck, unifyToLoop C other (acc, ck0) l = some (acc ++ rs, ck) ∧
      List.Forall₂ (fun e r => r.1 = e.1 ∧ (C.objUnify e.2 other).1 = Ty.object r.2) l rs ∧
      ck.rank ≤ ck0.rank ∧
      (∀ e ∈ l, ck.rank ≤ (C.objUnify e.2 other).2.rank) ∧
      (ck = ck0 ∨ ∃ e ∈ l, (C.objUnify e.2 other).2 = ck) := by
  induction l generalizing acc ck0 with
  | nil => exact ⟨[], ck0, by simp [unifyToLoop], List.Forall₂.nil, le_refl _, by simp, Or.inl rfl⟩
  | cons e rest ih =>
    obtain ⟨n, m⟩ := e
    obtain ⟨o, ho⟩ := hobj (n, m) (List.mem_cons_self _ _)
    simp only [List.map_cons, List.nodup_cons] at hk
    have hn : n ∉ acc.map Prod.fst := hdisj n (by simp)
    have hdisj2 : ∀ k ∈ rest.map Prod.fst, k ∉ (acc ++ [(n, o)]).map Prod.fst := by
      intro k hkr hka
      simp only [List.map_append, List.map_cons, List.map_nil, List.mem_append,
        List.mem_singleton] at hka
      rcases hka with hka | hka
      · exact hdisj k (by simp only [List.map_cons]; exact List.mem_cons_of_mem _ hkr) hka
      · rw [hka] at hkr
        exact hk.1 hkr
    obtain ⟨rs, ck, hloop, hrel, hle, hall, hatt⟩ :=
      ih (acc ++ [(n, o)])
        (if (C.objUnify m other).2.rank < ck0.rank then (C.objUnify m other).2 else ck0)
        hk.2 hdisj2 (fun e he => hobj e (List.mem_cons_of_mem _ he))
    have hmin : (if (C.objUnify m other).2.rank < ck0.rank then (C.objUnify m other).2
        else ck0).rank ≤ ck0.rank ∧
        (if (C.objUnify m other).2.rank < ck0.rank then (C.objUnify m other).2
        else ck0).rank ≤ (C.objUnify m other).2.rank := by
      split <;> constructor <;> omega
    refine ⟨(n, o) :: rs, ck, ?_, ?_, ?_, ?_, ?_⟩
    · simp only [unifyToLoop, ho, Ty.asObject, mapSet_of_not_mem acc n o hn]
      rw [hloop]
      simp
    · exact List.Forall₂.cons ⟨rfl, ho⟩ hrel
    · exact le_trans hle hmin.1
    · intro e he
      rcases List.mem_cons.1 he with rfl | hmem
      · exact le_trans hle hmin.2
      · exact hall e hmem
    · rcases hatt with hatt | ⟨e, he, hatt⟩
      · by_cases hlt : (C.objUnify m other).2.rank < ck0.rank
        · right
          refine ⟨(n, m), List.mem_cons_self _ _, ?_⟩
          rw [hatt, if_pos hlt]
        · left
          rw [hatt, if_neg hlt]
      · exact Or.inr ⟨e, List.mem_cons_of_mem _ he, hatt⟩

/-- The loop of `unifyTo` aborts exactly when some member unification yields a type that is not
an object type. -/
theorem unifyToLoop_eq_none_iff (C : Collaborators Obj) (other : Ty Obj)
    (l : List (String × Obj)) (st : List (String × Obj) × ConversionKind) :
    unifyToLoop C other st l = none ↔
      ∃ e ∈ l, (C.objUnify e.2 other).1.asObject = none := by
  induction l generalizing st with
  | nil => simp [unifyToLoop]
  | cons e rest ih =>
    obtain ⟨n, m⟩ := e
    obtain ⟨mapping, ck⟩ := st
    simp only [unifyToLoop, List.mem_cons, exists_eq_or_imp]
    cases ho : (C.objUnify m other).1.asObject with
    | none => simp
    | some o => simp [ih]

/-- Entries that follow the entries of a mapping one by one have the same keys. -/
theorem keys_eq_of_forall₂ (C : Collaborators Obj) (other : Ty Obj)
    {l rs : List (String × Obj)}
    (h : List.Forall₂ (fun e r => r.1 = e.1 ∧ (C.objUnify e.2 other).1 = Ty.object r.2) l rs) :
    rs.map Prod.fst = l.map Prod.fst := by
  induction h with
  | nil => rfl
  | cons h _ ih => simp [h.1, ih]

/-- C6, as stated, fails: on the union `{"cat": {age: int}, "dog": {breed: string}}` and the
type `int`, the unification of the member `cat` yields a plain union, the type assertion of
`unifyTo` aborts, and no discriminated union and no conversion kind are returned. -/
theorem unifyTo_no_result_counterexample :
    (Sample.collaborators.objUnify Sample.cat (Ty.named "int")).1.asObject = none ∧
      (Sample.unionCatDog.unifyTo Sample.collaborators (Ty.named "int") 9).isSome = false :=
  ⟨rfl, rfl⟩

/-- C6, amended: when every member unification with `T` yields an object type, `unifyTo` returns a
discriminated union with the discriminator of `U` and the same keys, whose member under each key
is the result of unifying the member of `U` under that key with `T`, together with the minimum
of the kinds of the member unifications (`SafeConversion` for an empty mapping); one unsafe
member unification among safe ones yields `UnsafeConversion`. -/
theorem unifyTo_spec (C : Collaborators Obj) (U : DiscriminatedUnionType Obj) (T : Ty Obj)
    (newAddr : Nat) (hk : U.keys.Nodup)
    (hobj : ∀ e ∈ U.Mapping, ∃ o, (C.objUnify e.2 T).1 = Ty.object o) :
    ∃ mapping ck,
      U.unifyTo C T newAddr =
        some (Ty.discriminatedUnion
          { addr := newAddr, Discriminator := U.Discriminator, Mapping := mapping, s := "" },
          ck) ∧
      mapping.map Prod.fst = U.keys ∧
      List.Forall₂ (fun e r => r.1 = e.1 ∧ (C.objUnify e.2 T).1 = Ty.object r.2)
        U.Mapping mapping ∧
      (∀ e ∈ U.Mapping, ck.rank ≤ (C.objUnify e.2 T).2.rank) ∧
      ((U.Mapping = [] ∧ ck = ConversionKind.SafeConversion) ∨
        ∃ e ∈ U.Mapping, (C.objUnify e.2 T).2 = ck) ∧
      ((∃ e ∈ U.Mapping, (C.objUnify e.2 T).2 = ConversionKind.UnsafeConversion) →
        (∀ e ∈ U.Mapping, (C.objUnify e.2 T).2 ≠ ConversionKind.NoConversion) →
        ck = ConversionKind.UnsafeConversion) := by
  obtain ⟨rs, ck, hloop, hrel, _, hall, hatt⟩ :=
    unifyToLoop_spec C T U.Mapping [] ConversionKind.SafeConversion hk (by simp) hobj
  have hkeys : rs.map Prod.fst = U.Mapping.map Prod.fst := keys_eq_of_forall₂ C T hrel
  have hatt2 : (U.Mapping = [] ∧ ck = ConversionKind.SafeConversion) ∨
      ∃ e ∈ U.Mapping, (C.objUnify e.2 T).2 = ck := by
    rcases hatt with hatt | hatt
    · cases hm : U.Mapping with
      | nil => exact Or.inl ⟨rfl, hatt⟩
      | cons e rest =>
        right
        have hle := hall e (by rw [hm]; exact List.mem_cons_self _ _)
        refine ⟨e, List.mem_cons_self _ _, ?_⟩
        rw [hatt] at hle ⊢
        exact ConversionKind.eq_safe_of_rank _ hle
    · exact Or.inr hatt
  refine ⟨rs, ck, ?_, hkeys, hrel, hall, hatt2, ?_⟩
  · simp only [unifyTo, hloop, List.nil_append, NewDiscriminatedUnionType]
  · rintro ⟨e, he, hu⟩ hno
    have hle := hall e he
    rw [hu] at hle
    rcases hatt2 with ⟨hnil, _⟩ | ⟨e2, he2, h2⟩
    · rw [hnil] at he
      cases he
    · have hne := hno e2 he2
      rw [h2] at hne
      cases ck
      · exact absurd rfl hne
      · rfl
      · simp [ConversionKind.rank] at hle

/-- C6, on the union `{"a": {name}, "b": {name, age}}` unified with `{name}`: the member `a`
unifies safely, the member `b` unsafely, and the result is a union on the same discriminator and
keys with the kind `UnsafeConversion`. -/
theorem unifyTo_spec_witness :
    ∃ mapping,
      Sample.unionAB.unifyTo Sample.collaborators (Ty.object Sample.named) 9 =
        some (Ty.discriminatedUnion
          { addr := 9, Discriminator := "kind", Mapping := mapping, s := "" },
          ConversionKind.UnsafeConversion) ∧
      mapping.map Prod.fst = ["a", "b"] := by
  obtain ⟨mapping, ck, h1, h2, _, _, _, h6⟩ :=
    unifyTo_spec Sample.collaborators Sample.unionAB (Ty.object Sample.named) 9 (by decide)
      (by
        intro e he
        simp only [Sample.unionAB, List.mem_cons, List.mem_nil_iff, or_false] at he
        rcases he with rfl | rfl
        · exact ⟨Sample.named, rfl⟩
        · exact ⟨Sample.aged ++ Sample.named, rfl⟩)
  have hck : ck = ConversionKind.UnsafeConversion :=
    h6 ⟨("b", Sample.aged), by decide, by decide⟩ (by decide)
  rw [hck] at h1
  exact ⟨mapping, h1, h2⟩

/-- C7, as stated, fails: the members of `{"a": {name}, "b": {name, age}}` are object types,
the unification of the member `a` with the type `string` yields a plain union, and the type
assertion of `unifyTo` aborts. -/
theorem unifyTo_abort_counterexample :
    (Sample.collaborators.objUnify Sample.named (Ty.named "string")).1.asObject = none ∧
      Sample.unionAB.unifyTo Sample.collaborators (Ty.named "string") 9 = none :=
  ⟨rfl, rfl⟩

/-- C7, amended: `unifyTo` aborts exactly when the unification of some member with `T` yields a
type that is not an object type; when every member unification yields an object type the type
assertion holds for every member and `unifyTo` returns. -/
theorem unifyTo_eq_none_iff (C : Collaborators Obj) (U : DiscriminatedUnionType Obj)
    (T : Ty Obj) (newAddr : Nat) :
    U.unifyTo C T newAddr = none ↔
      ∃ e ∈ U.Mapping, (C.objUnify e.2 T).1.asObject = none := by
  rw [← unifyToLoop_eq_none_iff C T U.Mapping ([], ConversionKind.SafeConversion)]
  unfold unifyTo
  cases h : unifyToLoop C T ([], ConversionKind.SafeConversion) U.Mapping with
  | none => simp
  | some st => simp

/-! ## Properties of `Traverse` -/

/-- The loop of `Traverse` appends the results of the successful member traversals. -/
theorem traverseLoop_eq (C : Collaborators Obj) (traverser : Traverser)
    (l : List (String × Obj)) (types : List (Ty Obj)) :
    traverseLoop C traverser types l = types ++ successes C traverser l := by
  induction l generalizing types with
  | nil => simp [traverseLoop, successes]
  | cons e rest ih =>
    obtain ⟨n, m⟩ := e
    simp only [traverseLoop, successes, List.filterMap_cons]
    cases h : (C.objTraverse m traverser).2.HasErrors
    · simp [ih, successes]
    · simp [ih, successes]

/-- No member traversal succeeds when every member traversal has an error. -/
theorem successes_eq_nil (C : Collaborators Obj) (traverser : Traverser)
    (l : List (String × Obj))
    (h : ∀ e ∈ l, (C.objTraverse e.2 traverser).2.HasErrors = true) :
    successes C traverser l = [] := by
  induction l with
  | nil => rfl
  | cons e rest ih =>
    have he := h e (List.mem_cons_self _ _)
    simp only [successes, List.filterMap_cons, he, if_true]
    exact ih (fun e he => h e (List.mem_cons_of_mem _ he))

/-- When every successful member traversal resolves to `R`, the results are copies of `R`, one
for each member whose traversal succeeds. -/
theorem successes_eq_replicate (C : Collaborators Obj) (traverser : Traverser) (R : Ty Obj)
    (l : List (String × Obj))
    (h : ∀ e ∈ l, (C.objTraverse e.2 traverser).2.HasErrors = false →
      (C.objTraverse e.2 traverser).1 = R) :
    successes C traverser l = List.replicate (successes C traverser l).length R := by
  induction l with
  | nil => rfl
  | cons e rest ih =>
    have ih2 := ih (fun e he => h e (List.mem_cons_of_mem _ he))
    have he := h e (List.mem_cons_self _ _)
    cases hs : (C.objTraverse e.2 traverser).2.HasErrors
    · have hcons : successes C traverser (e :: rest) = R :: successes C traverser rest := by
        simp [successes, hs, he hs]
      rw [hcons, List.length_cons, List.replicate_succ, ← ih2]
    · have hcons : successes C traverser (e :: rest) = successes C traverser rest := by
        simp [successes, hs]
      rw [hcons]
      exact ih2

/-- A member whose traversal succeeds contributes a result. -/
theorem successes_ne_nil (C : Collaborators Obj) (traverser : Traverser)
    (l : List (String × Obj))
    (h : ∃ e ∈ l, (C.objTraverse e.2 traverser).2.HasErrors = false) :
    successes C traverser l ≠ [] := by
  obtain ⟨e, he, hs⟩ := h
  intro hnil
  have hmem : (C.objTraverse e.2 traverser).1 ∈ successes C traverser l := by
    simp only [successes, List.mem_filterMap]
    exact ⟨e, he, by simp [hs]⟩
  rw [hnil] at hmem
  cases hmem

/-- C8: when the traversal fails on every member, `Traverse` returns the dynamic type and
exactly one diagnostic, the `UnsupportedReceiverType` error for the union at the source range
of the traverser. -/
theorem Traverse_of_no_success (C : Collaborators Obj) (U : DiscriminatedUnionType Obj)
    (tr : Traverser)
    (hfail : ∀ e ∈ U.Mapping, (C.objTraverse e.2 tr).2.HasErrors = true) :
    U.Traverse C tr =
      (Ty.DynamicType, [C.unsupportedReceiverType (Ty.discriminatedUnion U) tr.SourceRange]) := by
  unfold Traverse
  rw [traverseLoop_eq, successes_eq_nil C tr U.Mapping hfail]
  rfl

/-- C8, on the union `{"a": {name}, "b": {name, age}}` traversed by `.foo`. -/
theorem Traverse_of_no_success_witness :
    Sample.unionAB.Traverse Sample.collaborators (Sample.attr "foo") =
      (Ty.DynamicType,
        [Sample.collaborators.unsupportedReceiverType (Ty.discriminatedUnion Sample.unionAB)
          (Sample.attr "foo").SourceRange]) :=
  Traverse_of_no_success Sample.collaborators Sample.unionAB (Sample.attr "foo") (by decide)

/-- The method `Traverse` as a function of the results of the successful member traversals. -/
theorem Traverse_eq (C : Collaborators Obj) (U : DiscriminatedUnionType Obj) (tr : Traverser) :
    U.Traverse C tr =
      match successes C tr U.Mapping with
      | [] =>
        (Ty.DynamicType, [C.unsupportedReceiverType (Ty.discriminatedUnion U) tr.SourceRange])
      | [ty] =>
        if ty.isNoneType then
          (Ty.DynamicType,
            [C.unsupportedReceiverType (Ty.discriminatedUnion U) tr.SourceRange])
        else (ty, [])
      | ty :: ty2 :: types => (C.NewUnionType (ty :: ty2 :: types), []) := by
  unfold Traverse
  rw [traverseLoop_eq, List.nil_append]

/-- The sample union constructor returns a named type when all its arguments are that type. -/
theorem Sample.NewUnionType_replicate (name : String) (n : Nat) :
    Sample.NewUnionType (List.replicate (n + 1) (Ty.named name)) = Ty.named name := by
  have hflat : ∀ k, (List.replicate k (Ty.named name : Ty Sample.Object)).flatMap
      Sample.elementTypes = List.replicate k (Ty.named name) := by
    intro k
    induction k with
    | zero => rfl
    | succ k ih => simp [List.replicate_succ, Sample.elementTypes, ih]
  have hdist : ∀ k, Sample.distinct [Ty.named name]
      (List.replicate k (Ty.named name : Ty Sample.Object)) = [Ty.named name] := by
    intro k
    induction k with
    | zero => rfl
    | succ k ih => simp [List.replicate_succ, Sample.distinct, Sample.sameType, ih]
  unfold Sample.NewUnionType
  rw [hflat, List.replicate_succ]
  have hstep : Sample.distinct []
      ((Ty.named name : Ty Sample.Object) :: List.replicate n (Ty.named name)) =
      Sample.distinct [Ty.named name] (List.replicate n (Ty.named name)) := by
    simp [Sample.distinct]
  rw [hstep, hdist]

/-- C9: when at least one member traversal succeeds and all the successful ones resolve to the
same type `R`, which is not the none type, `Traverse` returns `R` itself with no diagnostics:
directly when one member succeeds, and through `NewUnionType`, which returns `R` for arguments
that are all `R`, when several members succeed. -/
theorem Traverse_of_same_result (C : Collaborators Obj) (U : DiscriminatedUnionType Obj)
    (tr : Traverser) (R : Ty Obj)
    (hsome : ∃ e ∈ U.Mapping, (C.objTraverse e.2 tr).2.HasErrors = false)
    (hsame : ∀ e ∈ U.Mapping, (C.objTraverse e.2 tr).2.HasErrors = false →
      (C.objTraverse e.2 tr).1 = R)
    (hR : R.isNoneType = false)
    (hunion : ∀ n, 2 ≤ n → C.NewUnionType (List.replicate n R) = R) :
    U.Traverse C tr = (R, []) := by
  rw [Traverse_eq]
  have hrep := successes_eq_replicate C tr R U.Mapping hsame
  have hne := successes_ne_nil C tr U.Mapping hsome
  generalize (successes C tr U.Mapping).length = n at hrep
  rw [hrep] at hne ⊢
  match n, hne with
  | 0, hne => exact absurd rfl hne
  | 1, _ => simp [List.replicate, hR]
  | n + 2, _ =>
    have h := hunion (n + 2) (by omega)
    simp only [List.replicate_succ] at h ⊢
    rw [h]

/-- C9, on the union `{"a": {name: string}, "b": {name: string, age: int}}` traversed by
`.name`: both members resolve to `string`, and `Traverse` returns `string`. -/
theorem Traverse_of_same_result_witness :
    Sample.unionAB.Traverse Sample.collaborators (Sample.attr "name") =
      (Ty.named "string", []) :=
  Traverse_of_same_result Sample.collaborators Sample.unionAB (Sample.attr "name")
    (Ty.named "string") ⟨("a", Sample.named), by decide, by decide⟩
    (by
      intro e he _
      simp only [Sample.unionAB, List.mem_cons, List.mem_nil_iff, or_false] at he
      rcases he with rfl | rfl <;> rfl)
    rfl
    (by
      intro n hn
      obtain ⟨k, rfl⟩ : ∃ k, n = k + 1 := ⟨n - 1, by omega⟩
      exact Sample.NewUnionType_replicate "string" k)

/-- C10, as stated, fails: both members of `{"x": {gone: none}, "y": {gone: none}}` resolve
`.gone` to the none type, so the only distinct successful result is the none type, and
`Traverse` returns no diagnostic. -/
theorem Traverse_none_results_counterexample :
    successes Sample.collaborators (Sample.attr "gone") Sample.unionGone.Mapping =
        [Ty.NoneType, Ty.NoneType] ∧
      (Sample.unionGone.Traverse Sample.collaborators (Sample.attr "gone")).2 = [] :=
  ⟨rfl, rfl⟩

/-- C10, amended: when exactly one member traversal succeeds and it resolves to the none type,
`Traverse` returns the dynamic type and the `UnsupportedReceiverType` diagnostic; when two or
more member traversals succeed, whatever their results, it returns `NewUnionType` of the
results and no diagnostic. -/
theorem Traverse_of_none_result (C : Collaborators Obj) (U : DiscriminatedUnionType Obj)
    (tr : Traverser) :
    (successes C tr U.Mapping = [Ty.NoneType] →
        U.Traverse C tr =
          (Ty.DynamicType,
            [C.unsupportedReceiverType (Ty.discriminatedUnion U) tr.SourceRange])) ∧
      (2 ≤ (successes C tr U.Mapping).length →
        U.Traverse C tr = (C.NewUnionType (successes C tr U.Mapping), [])) := by
  rw [Traverse_eq]
  constructor
  · intro h
    rw [h]
    rfl
  · intro h
    match hs : successes C tr U.Mapping, h with
    | [], h => simp [hs] at h
    | [_], h => simp [hs] at h
    | _ :: _ :: _, _ => rfl

/-- C10, amended, on the union `{"x": {gone: none}}` traversed by `.gone`. -/
theorem Traverse_of_none_result_witness :
    Sample.unionGoneOne.Traverse Sample.collaborators (Sample.attr "gone") =
      (Ty.DynamicType,
        [Sample.collaborators.unsupportedReceiverType (Ty.discriminatedUnion Sample.unionGoneOne)
          (Sample.attr "gone").SourceRange]) :=
  (Traverse_of_none_result Sample.collaborators Sample.unionGoneOne (Sample.attr "gone")).1 rfl

/-- The sample union constructor on two different named types: the plain union of the two. -/
theorem Sample.NewUnionType_pair (a b : String) (h : a ≠ b) :
    Sample.NewUnionType [Ty.named a, Ty.named b] = Ty.union [Ty.named a, Ty.named b] := by
  have hb : (a == b) = false := by simpa using h
  simp [Sample.NewUnionType, Sample.elementTypes, Sample.distinct, Sample.sameType, hb]

/-- The results of the member traversals of two lists of entries, one after the other. -/
theorem successes_append (C : Collaborators Obj) (tr : Traverser)
    (l1 l2 : List (String × Obj)) :
    successes C tr (l1 ++ l2) = successes C tr l1 ++ successes C tr l2 := by
  simp [successes]

/-- C11: when the traversal succeeds on exactly one member, with a result `R` that is not the
none type, and fails on every other member, `Traverse` returns `R` directly with an empty list
of diagnostics: the errors of the failing members are dropped. -/
theorem Traverse_of_single_success (C : Collaborators Obj) (U : DiscriminatedUnionType Obj)
    (tr : Traverser) (R : Ty Obj) (before after : List (String × Obj)) (k : String) (m : Obj)
    (hsplit : U.Mapping = before ++ (k, m) :: after)
    (hok : (C.objTraverse m tr).2.HasErrors = false)
    (hres : (C.objTraverse m tr).1 = R)
    (hbefore : ∀ e ∈ before, (C.objTraverse e.2 tr).2.HasErrors = true)
    (hafter : ∀ e ∈ after, (C.objTraverse e.2 tr).2.HasErrors = true)
    (hR : R.isNoneType = false) :
    U.Traverse C tr = (R, []) := by
  have hs : successes C tr U.Mapping = [R] := by
    rw [hsplit, successes_append, successes_eq_nil C tr before hbefore]
    have hone : successes C tr ((k, m) :: after) = R :: successes C tr after := by
      simp [successes, hok, hres]
    rw [hone, successes_eq_nil C tr after hafter]
    rfl
  rw [Traverse_eq, hs]
  simp [hR]

/-- C11, on the union `{"cat": {age: int}, "dog": {breed: string}}` traversed by `.age`: only
the member `cat` has the attribute, and `Traverse` returns `int`. -/
theorem Traverse_of_single_success_witness :
    Sample.unionCatDog.Traverse Sample.collaborators (Sample.attr "age") =
      (Ty.named "int", []) :=
  Traverse_of_single_success Sample.collaborators Sample.unionCatDog (Sample.attr "age")
    (Ty.named "int") [] [("dog", Sample.dog)] "cat" Sample.cat rfl (by decide) rfl
    (by intro e he; cases he)
    (by
      intro e he
      simp only [List.mem_cons, List.mem_nil_iff, or_false] at he
      rw [he]
      decide)
    rfl

/-- C12: when the successful member traversals yield more than one distinct result type,
`Traverse` returns no diagnostics and the type that `NewUnionType` builds from the successful
results; with a `NewUnionType` that builds the plain union of the distinct types among its
arguments, this is the plain union whose element types are exactly the distinct successful
result types. -/
theorem Traverse_of_distinct_results (C : Collaborators Obj) (U : DiscriminatedUnionType Obj)
    (tr : Traverser) (elementTypes : List (Ty Obj))
    (hdistinct : ∃ t1 ∈ successes C tr U.Mapping, ∃ t2 ∈ successes C tr U.Mapping, t1 ≠ t2)
    (hunion : C.NewUnionType (successes C tr U.Mapping) = Ty.union elementTypes)
    (hnodup : elementTypes.Nodup)
    (hmem : ∀ ty, ty ∈ elementTypes ↔ ty ∈ successes C tr U.Mapping) :
    U.Traverse C tr = (C.NewUnionType (successes C tr U.Mapping), []) ∧
      U.Traverse C tr = (Ty.union elementTypes, []) ∧
      elementTypes.Nodup ∧
      ∀ ty, ty ∈ elementTypes ↔
        ∃ e ∈ U.Mapping, (C.objTraverse e.2 tr).2.HasErrors = false ∧
          (C.objTraverse e.2 tr).1 = ty := by
  have hT : U.Traverse C tr = (C.NewUnionType (successes C tr U.Mapping), []) := by
    rw [Traverse_eq]
    obtain ⟨t1, h1, t2, h2, hne⟩ := hdistinct
    match hs : successes C tr U.Mapping with
    | [] => rw [hs] at h1; cases h1
    | [ty] =>
      rw [hs] at h1 h2
      rw [List.mem_singleton.1 h1, List.mem_singleton.1 h2] at hne
      exact absurd rfl hne
    | _ :: _ :: _ => rfl
  refine ⟨hT, by rw [hT, hunion], hnodup, ?_⟩
  intro ty
  rw [hmem ty]
  simp only [successes, List.mem_filterMap]
  constructor
  · rintro ⟨e, he, h⟩
    cases hs : (C.objTraverse e.2 tr).2.HasErrors
    · rw [hs] at h
      simp only [Bool.false_eq_true, if_false, Option.some.injEq] at h
      exact ⟨e, he, hs, h⟩
    · rw [hs] at h
      simp at h
  · rintro ⟨e, he, hs, h⟩
    exact ⟨e, he, by simp [hs, h]⟩

/-- C12, on the union `{"i": {value: int}, "s": {value: string}}` traversed by `.value`: the
result is the plain union of `int` and `string`. -/
theorem Traverse_of_distinct_results_witness :
    Sample.unionValue.Traverse Sample.collaborators (Sample.attr "value") =
      (Ty.union [Ty.named "int", Ty.named "string"], []) :=
  (Traverse_of_distinct_results Sample.collaborators Sample.unionValue (Sample.attr "value")
    [Ty.named "int", Ty.named "string"]
    ⟨Ty.named "int", by show _ ∈ [Ty.named "int", Ty.named "string"]; simp,
      Ty.named "string", by show _ ∈ [Ty.named "int", Ty.named "string"]; simp,
      by intro h; injection h with h; exact absurd h (by decide)⟩
    (Sample.NewUnionType_pair "int" "string" (by decide))
    (by
      refine List.nodup_cons.2 ⟨?_, List.nodup_cons.2 ⟨by simp, List.nodup_nil⟩⟩
      intro h
      rw [List.mem_singleton] at h
      injection h with h
      exact absurd h (by decide))
    (fun _ => Iff.rfl)).2.1

/-! ## Properties of `string` -/

/-- The string that `string` builds is not the empty string. -/
theorem display_ne_empty (d items : String) :
    "discriminated_union(" ++ d ++ ", " ++ items ++ ")" ≠ "" := by
  intro h
  have hlen := congrArg String.length h
  simp only [String.length_append] at hlen
  have h0 : "".length = 0 := rfl
  have h1 : ")".length = 1 := rfl
  omega

/-- C14: after a call of `string` the memoized field is not empty and holds the string that the
call returned; a second call returns that same string and leaves the instance as it is, without
a call of the members' `string` (the result is the same for every collaborator and `seen`). -/
theorem string_memoized (C : Collaborators Obj) (U : DiscriminatedUnionType Obj) (seen : Seen) :
    (U.string C seen).2.s ≠ "" ∧
      (U.string C seen).2.s = (U.string C seen).1 ∧
      ∀ (C2 : Collaborators Obj) (seen2 : Seen),
        (U.string C seen).2.string C2 seen2 = ((U.string C seen).1, (U.string C seen).2) := by
  by_cases hs : U.s = ""
  · have hb : (U.s == "") = true := by simp [hs]
    have hne := display_ne_empty U.Discriminator (", ".intercalate (stringLoop C seen [] U.Mapping))
    have hnb : (("discriminated_union(" ++ U.Discriminator ++ ", " ++
        ", ".intercalate (stringLoop C seen [] U.Mapping) ++ ")") == "") = false := by
      simpa using hne
    refine ⟨?_, ?_, ?_⟩
    · simp only [string, hb, if_true]
      exact hne
    · simp only [string, hb, if_true]
    · intro C2 seen2
      simp only [string, hb, if_true, hnb, Bool.false_eq_true, if_false]
  · have hb : (U.s == "") = false := by simpa using hs
    refine ⟨?_, ?_, ?_⟩
    · simp only [string, hb, Bool.false_eq_true, if_false]
      exact hs
    · simp only [string, hb, Bool.false_eq_true, if_false]
    · intro C2 seen2
      simp only [string, hb, Bool.false_eq_true, if_false]

/-! ## Properties of `AssignableFrom` -/

/-- The fallback of `AssignableFrom` is true exactly when some member is assignable. -/
theorem assignableFromLoop_eq_true_iff (C : Collaborators Obj) (src : Ty Obj)
    (l : List (String × Obj)) :
    assignableFromLoop C src l = true ↔ ∃ e ∈ l, C.objAssignableFrom e.2 src = true := by
  induction l with
  | nil => simp [assignableFromLoop]
  | cons e rest ih =>
    obtain ⟨n, m⟩ := e
    simp only [assignableFromLoop, List.mem_cons, exists_eq_or_imp]
    cases hm : C.objAssignableFrom m src
    · simpa using ih
    · simp

/-- C15: with a combinator that returns true for identical types, `U.AssignableFrom(U)` is
true; and for a source `S` on which the combinator reaches the fallback, `U.AssignableFrom(S)`
is true if and only if at least one member of `U` is assignable from `S`. -/
theorem AssignableFrom_spec (C : Collaborators Obj) (U : DiscriminatedUnionType Obj)
    (S : Ty Obj)
    (hidentity : ∀ fallback,
      C.assignableFrom (Ty.discriminatedUnion U) (Ty.discriminatedUnion U) fallback = true)
    (hfallback : C.assignableFrom (Ty.discriminatedUnion U) S
        (fun _ => assignableFromLoop C S U.Mapping) = assignableFromLoop C S U.Mapping) :
    U.AssignableFrom C (Ty.discriminatedUnion U) = true ∧
      (U.AssignableFrom C S = true ↔ ∃ e ∈ U.Mapping, C.objAssignableFrom e.2 S = true) := by
  constructor
  · exact hidentity _
  · unfold AssignableFrom
    rw [hfallback]
    exact assignableFromLoop_eq_true_iff C S U.Mapping

/-- C15, on the union `{"a": {name}, "b": {name, age}}` and the source `{name}`, which the
member `a` is assignable from. -/
theorem AssignableFrom_spec_witness :
    Sample.unionAB.AssignableFrom Sample.collaborators (Ty.discriminatedUnion Sample.unionAB) =
        true ∧
      Sample.unionAB.AssignableFrom Sample.collaborators (Ty.object Sample.named) = true :=
  ⟨(AssignableFrom_spec Sample.collaborators Sample.unionAB (Ty.object Sample.named)
      (fun _ => rfl) rfl).1,
    (AssignableFrom_spec Sample.collaborators Sample.unionAB (Ty.object Sample.named)
      (fun _ => rfl) rfl).2.2 ⟨("a", Sample.named), by decide, by decide⟩⟩

/-! ## The format of the display string -/

/-- Joining a list of strings that starts with `a`. -/
theorem join_cons (a : String) (l : List String) : String.join (a :: l) = a ++ String.join l := by
  apply String.ext
  simp [String.join_eq]

/-- The loop of `String.intercalate`: every remaining string is appended after a separator. -/
theorem intercalate_go_eq (acc sep : String) (l : List String) :
    String.intercalate.go acc sep l = acc ++ String.join (l.map (fun x => sep ++ x)) := by
  induction l generalizing acc with
  | nil =>
    have hj : String.join [] = "" := rfl
    simp [String.intercalate.go, hj]
  | cons a rest ih =>
    simp only [String.intercalate.go, List.map_cons, join_cons]
    rw [ih]
    simp only [String.append_assoc]

/-- A separator followed by the non-empty list joined with it: every string of the list after
a separator. -/
theorem sep_append_intercalate (sep a : String) (l : List String) :
    sep ++ sep.intercalate (a :: l) = String.join ((a :: l).map (fun x => sep ++ x)) := by
  simp only [String.intercalate, intercalate_go_eq, List.map_cons, join_cons,
    String.append_assoc]

/-- The loop of `string` appends one item `key=member` per entry, in iteration order. -/
theorem stringLoop_eq (C : Collaborators Obj) (seen : Seen) (l : List (String × Obj))
    (items : List String) :
    stringLoop C seen items l =
      items ++ l.map (fun e => e.1 ++ "=" ++ C.objString e.2 seen) := by
  induction l generalizing items with
  | nil => simp [stringLoop]
  | cons e rest ih =>
    obtain ⟨n, m⟩ := e
    simp [stringLoop, ih]

/-- C13, as stated, fails: for a mapping whose entries are visited in the order `b`, `a`, the
display string lists `b` before `a`; the entries are not sorted by key. -/
theorem string_order_counterexample :
    (Sample.unionBA.string Sample.collaborators none).1 =
      "discriminated_union(kind, b=object(name=string, age=int), a=object(name=string))" := by
  decide

/-- C13, amended: the first call of `string` on an instance returns `discriminated_union(`, the
discriminator, `, `, the items `key=member display` joined by `, `, and `)`, the items being in
the order in which the loop visits the mapping; for a mapping with at least one entry this is
`discriminated_union(`, the discriminator, `, key=member display` for each entry in that order,
and `)`. -/
theorem string_format (C : Collaborators Obj) (U : DiscriminatedUnionType Obj) (seen : Seen)
    (hfirst : U.s = "") :
    (U.string C seen).1 =
        "discriminated_union(" ++ U.Discriminator ++ ", " ++
          ", ".intercalate (U.Mapping.map (fun e => e.1 ++ "=" ++ C.objString e.2 seen)) ++
          ")" ∧
      (U.Mapping ≠ [] →
        (U.string C seen).1 =
          "discriminated_union(" ++ U.Discriminator ++
            String.join (U.Mapping.map
              (fun e => ", " ++ (e.1 ++ "=" ++ C.objString e.2 seen))) ++ ")") := by
  have hb : (U.s == "") = true := by simp [hfirst]
  have h1 : (U.string C seen).1 =
      "discriminated_union(" ++ U.Discriminator ++ ", " ++
        ", ".intercalate (U.Mapping.map (fun e => e.1 ++ "=" ++ C.objString e.2 seen)) ++
        ")" := by
    simp only [string, hb, if_true, stringLoop_eq, List.nil_append]
  refine ⟨h1, ?_⟩
  intro hne
  rw [h1]
  cases hm : U.Mapping with
  | nil => exact absurd hm hne
  | cons e rest =>
    have hsep := sep_append_intercalate ", " (e.1 ++ "=" ++ C.objString e.2 seen)
      (rest.map (fun e => e.1 ++ "=" ++ C.objString e.2 seen))
    simp only [List.map_cons, List.map_map] at hsep ⊢
    rw [String.append_assoc ("discriminated_union(" ++ U.Discriminator) ", ", hsep]
    rfl

/-- C13, amended, on the union `{"a": {name}, "b": {name, age}}` visited in the order `a`,
`b`. -/
theorem string_format_witness :
    (Sample.unionAB.string Sample.collaborators none).1 =
      "discriminated_union(" ++ "kind" ++ ", " ++
        ", ".intercalate (Sample.unionAB.Mapping.map
          (fun e => e.1 ++ "=" ++ Sample.collaborators.objString e.2 none)) ++ ")" :=
  (string_format Sample.collaborators Sample.unionAB none rfl).1

/-! ## The empty mapping and the order of the members -/

/-- C16, as stated, fails: `unifyTo` on a union with an empty mapping returns the empty union
together with `SafeConversion`. -/
theorem unifyTo_empty_counterexample :
    Sample.unionEmpty.unifyTo Sample.collaborators (Ty.named "string") 9 =
      some (Ty.discriminatedUnion
        { addr := 9, Discriminator := "kind", Mapping := [], s := "" },
        ConversionKind.SafeConversion) :=
  rfl

/-- C16, amended: for a union with an empty mapping, `Traverse` returns the
`UnsupportedReceiverType` diagnostic for every traverser, the member rule of `AssignableFrom`
is false, the member rule of `ConversionFrom` and `conversionTo` are `NoConversion`, and
`unifyTo` returns the union with the same discriminator and an empty mapping together with
`SafeConversion`. -/
theorem empty_mapping_spec (C : Collaborators Obj) (U : DiscriminatedUnionType Obj)
    (hempty : U.Mapping = []) :
    (∀ tr, U.Traverse C tr =
        (Ty.DynamicType,
          [C.unsupportedReceiverType (Ty.discriminatedUnion U) tr.SourceRange])) ∧
      (∀ S, assignableFromLoop C S U.Mapping = false) ∧
      (∀ S unifying seen,
        conversionFromFallback C U S unifying seen = ConversionKind.NoConversion) ∧
      (∀ D unifying seen, U.conversionTo C D unifying seen = ConversionKind.NoConversion) ∧
      (∀ T newAddr, U.unifyTo C T newAddr =
        some (Ty.discriminatedUnion
          { addr := newAddr, Discriminator := U.Discriminator, Mapping := [], s := "" },
          ConversionKind.SafeConversion)) := by
  refine ⟨?_, ?_, ?_, ?_, ?_⟩
  · intro tr
    simp [Traverse, hempty, traverseLoop]
  · intro S
    simp [hempty, assignableFromLoop]
  · intro S unifying seen
    simp [conversionFromFallback, hempty, conversionFromLoop]
  · intro D unifying seen
    simp [conversionTo, hempty, conversionToLoop]
  · intro T newAddr
    simp [unifyTo, hempty, unifyToLoop, NewDiscriminatedUnionType]

/-- C16, amended, on the sample union with an empty mapping: `conversionTo` is
`NoConversion`. -/
theorem empty_mapping_spec_witness :
    Sample.unionEmpty.conversionTo Sample.collaborators (Ty.named "string") false none =
      ConversionKind.NoConversion :=
  (empty_mapping_spec Sample.collaborators Sample.unionEmpty rfl).2.2.2.1
    (Ty.named "string") false none

/-- C18: `conversionTo` does not depend on the order in which the members are visited: two
mappings with the same entries in a different order give the same conversion kind. -/
theorem conversionTo_perm (C : Collaborators Obj) (U1 U2 : DiscriminatedUnionType Obj)
    (D : Ty Obj) (unifying : Bool) (seen : Seen) (hperm : U1.Mapping.Perm U2.Mapping) :
    U1.conversionTo C D unifying seen = U2.conversionTo C D unifying seen := by
  have hany : ∀ p : String × Obj → Bool, U1.Mapping.any p = U2.Mapping.any p := by
    intro p
    rw [Bool.eq_iff_iff, List.any_eq_true, List.any_eq_true]
    constructor
    · rintro ⟨e, he, h⟩
      exact ⟨e, hperm.mem_iff.1 he, h⟩
    · rintro ⟨e, he, h⟩
      exact ⟨e, hperm.mem_iff.2 he, h⟩
  have hall : ∀ p : String × Obj → Bool, U1.Mapping.all p = U2.Mapping.all p := by
    intro p
    rw [Bool.eq_iff_iff, List.all_eq_true, List.all_eq_true]
    constructor
    · intro h e he
      exact h e (hperm.mem_iff.2 he)
    · intro h e he
      exact h e (hperm.mem_iff.1 he)
  rw [conversionTo_eq, conversionTo_eq, hany, hall]

/-- C18, on `{"a": X, "b": Y}` and `{"b": Y, "a": X}`. -/
theorem conversionTo_perm_witness :
    Sample.unionAB.conversionTo Sample.collaborators (Ty.object Sample.named) false none =
      Sample.unionBA.conversionTo Sample.collaborators (Ty.object Sample.named) false none :=
  conversionTo_perm Sample.collaborators Sample.unionAB Sample.unionBA (Ty.object Sample.named)
    false none (List.Perm.swap _ _ _)

end DiscriminatedUnionType

end Model

/-! ## Properties of `SetConfig` and `DeleteConfig` -/

namespace Encoding

/-- When `walk` returns a mapping, it is the value of the first entry whose key is the path. -/
theorem walk_ok {node : List MappingValueNode} {path : String} {child : List MappingValueNode}
    (h : walk node path = Outcome.ok child) :
    ∃ before k after, node = before ++ (k, Node.MappingNode child) :: after ∧
      (∀ e ∈ before, e.1.text ≠ path) ∧ k.text = path := by
  induction node with
  | nil => simp [walk] at h
  | cons e rest ih =>
    obtain ⟨k, v⟩ := e
    by_cases hk : k.text = path
    · have hb : (k.text == path) = true := by simpa using hk
      simp only [walk, hb, if_true] at h
      cases v with
      | MappingNode values =>
        simp only [Outcome.ok.injEq] at h
        exact ⟨[], k, rest, by simp [h], by simp, hk⟩
      | MappingValueNode _ _ => cases h
      | StringNode _ _ => cases h
      | OtherNode _ => cases h
    · have hb : (k.text == path) = false := by simpa using hk
      simp only [walk, hb, Bool.false_eq_true, if_false] at h
      obtain ⟨before, k2, after, hnode, hbefore, hk2⟩ := ih h
      refine ⟨(k, v) :: before, k2, after, by simp [hnode], ?_, hk2⟩
      intro e he
      rcases List.mem_cons.1 he with rfl | hmem
      · exact hk
      · exact hbefore e hmem

/-- The function `walk` on a mapping whose first entry with the key of the path holds a
mapping. -/
theorem walk_of_split (before after : List MappingValueNode) (k : KeyNode) (path : String)
    (child : List MappingValueNode) (hbefore : ∀ e ∈ before, e.1.text ≠ path)
    (hk : k.text = path) :
    walk (before ++ (k, Node.MappingNode child) :: after) path = Outcome.ok child := by
  induction before with
  | nil =>
    have hb : (k.text == path) = true := by simpa using hk
    simp [walk, hb]
  | cons e rest ih =>
    obtain ⟨k2, v2⟩ := e
    have hne : k2.text ≠ path := hbefore (k2, v2) (List.mem_cons_self _ _)
    have hb : (k2.text == path) = false := by simpa using hne
    simp only [List.cons_append, walk, hb, Bool.false_eq_true, if_false]
    exact ih (fun e he => hbefore e (List.mem_cons_of_mem _ he))

/-- An error of `walk` names the path that was not found. -/
theorem walk_error {node : List MappingValueNode} {path : String} {e : Error}
    (h : walk node path = Outcome.error e) : e = Error.configKeyNotFound path := by
  induction node with
  | nil =>
    simp only [walk, Outcome.error.injEq] at h
    exact h.symm
  | cons entry rest ih =>
    obtain ⟨k, v⟩ := entry
    by_cases hk : k.text = path
    · have hb : (k.text == path) = true := by simpa using hk
      simp only [walk, hb, if_true] at h
      cases v <;> cases h
    · have hb : (k.text == path) = false := by simpa using hk
      simp only [walk, hb, Bool.false_eq_true, if_false] at h
      exact ih h

/-- An error of the loop over the paths is the wrapped error of a path that was not found. -/
theorem walkPaths_error (message : String) {paths : List String}
    {root : List MappingValueNode} {e : Error}
    (h : walkPaths message root paths = Outcome.error e) :
    ∃ seg ∈ paths, e = Error.wrap (Error.configKeyNotFound seg) message := by
  induction paths generalizing root with
  | nil => simp [walkPaths] at h
  | cons path paths ih =>
    simp only [walkPaths] at h
    cases hw : walk root path with
    | ok next =>
      rw [hw] at h
      obtain ⟨seg, hseg, he⟩ := ih h
      exact ⟨seg, List.mem_cons_of_mem _ hseg, he⟩
    | error e2 =>
      rw [hw] at h
      simp only [Outcome.error.injEq] at h
      refine ⟨path, List.mem_cons_self _ _, ?_⟩
      rw [← h, walk_error hw]
    | abort =>
      rw [hw] at h
      cases h

/-- Replacing the value of the first entry with a key, on a list split at that entry. -/
theorem replaceFirst_of_split (before after : List MappingValueNode) (k : KeyNode)
    (v : Node) (path : String) (f : Node → Node) (hbefore : ∀ e ∈ before, e.1.text ≠ path)
    (hk : k.text = path) :
    replaceFirst path f (before ++ (k, v) :: after) = before ++ (k, f v) :: after := by
  induction before with
  | nil =>
    have hb : (k.text == path) = true := by simpa using hk
    simp [replaceFirst, hb]
  | cons e rest ih =>
    obtain ⟨k2, v2⟩ := e
    have hne : k2.text ≠ path := hbefore (k2, v2) (List.mem_cons_self _ _)
    have hb : (k2.text == path) = false := by simpa using hne
    have hrest := ih (fun e he => hbefore e (List.mem_cons_of_mem _ he))
    simp only [List.cons_append, replaceFirst, hb, Bool.false_eq_true, if_false]
    exact congrArg (fun l => (k2, v2) :: l) hrest

/-- The AST after a store differs from the AST before it only in the mapping that the loop over
the paths reaches. -/
theorem store_changedOnlyAt (message : String) (paths : List String)
    (root node node2 : List MappingValueNode)
    (h : walkPaths message root paths = Outcome.ok node) :
    ChangedOnlyAt paths root (store paths root node2) node node2 := by
  induction paths generalizing root with
  | nil =>
    simp only [walkPaths, Outcome.ok.injEq] at h
    rw [h]
    exact ChangedOnlyAt.here node node2
  | cons path paths ih =>
    simp only [walkPaths] at h
    cases hw : walk root path with
    | ok next =>
      rw [hw] at h
      obtain ⟨before, k, after, hroot, hbefore, hk⟩ := walk_ok hw
      rw [hroot]
      simp only [store]
      rw [replaceFirst_of_split before after k _ path _ hbefore hk]
      exact ChangedOnlyAt.step path paths before after k next _ node node2 hbefore hk
        (ih next h)
    | error e =>
      rw [hw] at h
      cases h
    | abort =>
      rw [hw] at h
      cases h

/-- In two ASTs that differ only in the mapping at the paths, the loop over the paths reaches
the old mapping in the first and the new mapping in the second. -/
theorem walkPaths_of_changedOnlyAt (message : String) {paths : List String}
    {root root2 node node2 : List MappingValueNode}
    (h : ChangedOnlyAt paths root root2 node node2) :
    walkPaths message root paths = Outcome.ok node ∧
      walkPaths message root2 paths = Outcome.ok node2 := by
  induction h with
  | here node node2 => exact ⟨rfl, rfl⟩
  | step path paths before after k child child2 node node2 hbefore hkey _ ih =>
    constructor
    · simp only [walkPaths, walk_of_split before after k path child hbefore hkey]
      exact ih.1
    · simp only [walkPaths, walk_of_split before after k path child2 hbefore hkey]
      exact ih.2

/-- The update loop of `SetConfig` finds no entry exactly when no entry has the key. -/
theorem updateValue_eq_none (key value : String) (column : Nat)
    (node : List MappingValueNode) :
    updateValue key value column node = none ↔ ∀ e ∈ node, e.1.text ≠ key := by
  induction node with
  | nil => simp [updateValue]
  | cons e rest ih =>
    obtain ⟨k, v⟩ := e
    by_cases hk : k.text = key
    · have hb : (k.text == key) = true := by simpa using hk
      simp [updateValue, hb, hk]
    · have hb : (k.text == key) = false := by simpa using hk
      simp [updateValue, hb, hk, ih]

/-- The update loop of `SetConfig` replaces the value of the first entry that has the key. -/
theorem updateValue_eq_some (key value : String) (column : Nat)
    {node updated : List MappingValueNode}
    (h : updateValue key value column node = some updated) :
    ∃ before k old after, node = before ++ (k, old) :: after ∧
      (∀ e ∈ before, e.1.text ≠ key) ∧ k.text = key ∧
      updated = before ++ (k, Node.StringNode value column) :: after := by
  induction node generalizing updated with
  | nil => simp [updateValue] at h
  | cons e rest ih =>
    obtain ⟨k, v⟩ := e
    by_cases hk : k.text = key
    · have hb : (k.text == key) = true := by simpa using hk
      simp only [updateValue, hb, if_true, Option.some.injEq, newStringNode] at h
      exact ⟨[], k, v, rest, rfl, by simp, hk, by simp [← h]⟩
    · have hb : (k.text == key) = false := by simpa using hk
      simp only [updateValue, hb, Bool.false_eq_true, if_false, Option.map_eq_some'] at h
      obtain ⟨r, hr, hupd⟩ := h
      obtain ⟨before, k2, old, after, hnode, hbefore, hk2, hrr⟩ := ih hr
      refine ⟨(k, v) :: before, k2, old, after, by simp [hnode], ?_, hk2, ?_⟩
      · intro e he
        rcases List.mem_cons.1 he with rfl | hmem
        · exact hk
        · exact hbefore e hmem
      · rw [← hupd, hrr]
        rfl

/-- The removal loop of `DeleteConfig` finds no entry exactly when no entry has the key. -/
theorem removeValue_eq_none (key : String) (node : List MappingValueNode) :
    removeValue key node = none ↔ ∀ e ∈ node, e.1.text ≠ key := by
  induction node with
  | nil => simp [removeValue]
  | cons e rest ih =>
    obtain ⟨k, v⟩ := e
    by_cases hk : k.text = key
    · have hb : (k.text == key) = true := by simpa using hk
      simp [removeValue, hb, hk]
    · have hb : (k.text == key) = false := by simpa using hk
      simp [removeValue, hb, hk, ih]

/-- The removal loop of `DeleteConfig` on a list split at the first entry that has the key. -/
theorem removeValue_of_split (key : String) (before after : List MappingValueNode)
    (k : KeyNode) (old : Node) (hbefore : ∀ e ∈ before, e.1.text ≠ key) (hk : k.text = key) :
    removeValue key (before ++ (k, old) :: after) = some (before ++ after) := by
  induction before with
  | nil =>
    have hb : (k.text == key) = true := by simpa using hk
    simp [removeValue, hb]
  | cons e rest ih =>
    obtain ⟨k2, v2⟩ := e
    have hne : k2.text ≠ key := hbefore (k2, v2) (List.mem_cons_self _ _)
    have hb : (k2.text == key) = false := by simpa using hne
    have hrest := ih (fun e he => hbefore e (List.mem_cons_of_mem _ he))
    simp only [List.cons_append, removeValue, hb, Bool.false_eq_true, if_false]
    rw [show rest.append ((k, old) :: after) = rest ++ (k, old) :: after from rfl, hrest]
    rfl

/-- A list of characters without the separator is one piece. -/
theorem splitChars_of_not_mem (sep : Char) (a : List Char) (ha : sep ∉ a) :
    splitChars sep a = [a] := by
  induction a with
  | nil => rfl
  | cons c cs ih =>
    have hc : (c == sep) = false := by
      have hne : c ≠ sep := fun h => ha (by simp [h])
      simpa using hne
    have hcs : sep ∉ cs := fun h => ha (List.mem_cons_of_mem _ h)
    simp [splitChars, hc, ih hcs]

/-- The pieces of a first piece followed by further pieces, each after a separator, when no
piece holds the separator. -/
theorem splitChars_flatten (sep : Char) (l : List (List Char)) (a : List Char)
    (ha : sep ∉ a) (hl : ∀ piece ∈ l, sep ∉ piece) :
    splitChars sep (a ++ (l.map (fun piece => sep :: piece)).flatten) = a :: l := by
  induction l generalizing a with
  | nil => simpa using splitChars_of_not_mem sep a ha
  | cons b rest ih =>
    have hb : sep ∉ b := hl b (List.mem_cons_self _ _)
    have hrest := ih b hb (fun piece h => hl piece (List.mem_cons_of_mem _ h))
    induction a with
    | nil =>
      simp only [List.map_cons, List.flatten_cons, List.nil_append, splitChars, beq_self_eq_true,
        if_true]
      exact congrArg (fun r => [] :: r) hrest
    | cons c cs iha =>
      have hc : (c == sep) = false := by
        have hne : c ≠ sep := fun h => ha (by simp [h])
        simpa using hne
      have hcs : sep ∉ cs := fun h => ha (List.mem_cons_of_mem _ h)
      have hstep := iha hcs
      simp only [List.cons_append, splitChars, hc, Bool.false_eq_true, if_false]
      rw [show cs.append (List.map (fun piece => sep :: piece) (b :: rest)).flatten =
        cs ++ (List.map (fun piece => sep :: piece) (b :: rest)).flatten from rfl, hstep]

/-- The characters of segments joined by dots: the first segment, then every other segment
after a dot. -/
theorem intercalate_data (a : String) (l : List String) :
    (".".intercalate (a :: l)).data =
      a.data ++ (l.map (fun x => '.' :: x.data)).flatten := by
  have hdot : ".".data = ['.'] := rfl
  simp only [String.intercalate, Model.DiscriminatedUnionType.intercalate_go_eq,
    String.data_append, String.join_eq, List.map_map]
  congr 2

/-- The paths of a key path are its segments: the key path made of the segments `segs` joined
by dots, no segment holding a dot, is split into `segs`; the empty key path, which has no
segment, is the only one with no paths. -/
theorem splitKeyPath_intercalate (segs : List String) (hsegs : ∀ seg ∈ segs, '.' ∉ seg.data)
    (hne : segs ≠ [""]) : splitKeyPath (".".intercalate segs) = segs := by
  cases segs with
  | nil => rfl
  | cons a l =>
    have ha : '.' ∉ a.data := hsegs a (List.mem_cons_self _ _)
    have hl : ∀ piece ∈ l.map String.data, '.' ∉ piece := by
      intro piece hp
      obtain ⟨seg, hseg, rfl⟩ := List.mem_map.1 hp
      exact hsegs seg (List.mem_cons_of_mem _ hseg)
    have hdata := intercalate_data a l
    have hpos : (".".intercalate (a :: l)).utf8ByteSize > 0 := by
      have hne2 : (".".intercalate (a :: l)).data ≠ [] := by
        rw [hdata]
        cases l with
        | nil =>
          intro h
          apply hne
          have hadata : a.data = [] := by simpa using h
          have haempty : a = "" := String.ext hadata
          rw [haempty]
        | cons b rest => simp
      have hlen : String.utf8Len (".".intercalate (a :: l)).data ≠ 0 := by
        rw [Ne, String.utf8Len_eq_zero]
        exact hne2
      have hsize : (".".intercalate (a :: l)).utf8ByteSize =
          String.utf8Len (".".intercalate (a :: l)).data := rfl
      omega
    have hsplit : splitChars '.' (".".intercalate (a :: l)).data = a.data :: l.map String.data := by
      rw [hdata]
      have h := splitChars_flatten '.' (l.map String.data) a.data ha hl
      simpa [List.map_map] using h
    simp only [splitKeyPath, hpos, if_true, Split, hsplit, List.map_cons, List.map_map]
    congr 1
    exact List.map_id l

/-- C19, as stated, fails: the first document of the file `a: 1` is a mapping, the empty key
path designates it, and `SetConfig` aborts on the type assertion of the body, which the parser
built as an `*ast.MappingValueNode`. -/
theorem SetConfig_one_entry_counterexample :
    splitKeyPath "" = [] ∧ SetConfig sampleOneEntryFile "" "a" "2" 4 = none :=
  ⟨rfl, rfl⟩

/-- C19, amended: for the key path made of the segments `segs` joined by dots, on a file whose
first document has an `*ast.MappingNode` as body: when every segment resolves, from the body
down, to the first entry with that key and the value of that entry is an `*ast.MappingNode`,
`SetConfig` returns no error and an AST that differs only in the mapping `node` reached at the
end: the value of the first entry with the key becomes the string node of the value, the other
entries and their order being kept, or, when no entry has the key, the entry `(key, value)` is
added at the end; when a segment is not found, it returns the error `config key not found` of
that segment wrapped with `failed to set config`, and the AST is unchanged; when the value of
an entry on the path, or the body of the first document, is not an `*ast.MappingNode`, the type
assertion aborts. -/
theorem SetConfig_spec (f : FileAST) (doc : DocumentNode) (docs : List DocumentNode)
    (segs : List String) (key value : String) (column : Nat)
    (hdocs : f.Docs = doc :: docs)
    (hsegs : ∀ seg ∈ segs, '.' ∉ seg.data) (hne : segs ≠ [""]) :
    (∀ root, doc.Body = Node.MappingNode root →
      (∀ node, walkPaths "failed to set config" root segs = Outcome.ok node →
        ∃ node2 root2,
          SetConfig f (".".intercalate segs) key value column =
            some (none, { Docs := { Body := Node.MappingNode root2 } :: docs }) ∧
          ChangedOnlyAt segs root root2 node node2 ∧
          ((∃ before k old after, node = before ++ (k, old) :: after ∧
              (∀ e ∈ before, e.1.text ≠ key) ∧ k.text = key ∧
              node2 = before ++ (k, Node.StringNode value column) :: after) ∨
            ((∀ e ∈ node, e.1.text ≠ key) ∧
              node2 = node ++
                [({ text := key, Column := column }, Node.StringNode value column)]))) ∧
      (∀ e, walkPaths "failed to set config" root segs = Outcome.error e →
        SetConfig f (".".intercalate segs) key value column = some (some e, f) ∧
        ∃ seg ∈ segs, e = Error.wrap (Error.configKeyNotFound seg) "failed to set config") ∧
      (walkPaths "failed to set config" root segs = Outcome.abort →
        SetConfig f (".".intercalate segs) key value column = none)) ∧
      ((∀ root, doc.Body ≠ Node.MappingNode root) →
        SetConfig f (".".intercalate segs) key value column = none) := by
  have hsplit := splitKeyPath_intercalate segs hsegs hne
  constructor
  · intro root hbody
    refine ⟨?_, ?_, ?_⟩
    · intro node hwalk
      cases hupd : updateValue key value column node with
      | some updated =>
        refine ⟨updated, store segs root updated, ?_, ?_, ?_⟩
        · simp only [SetConfig, hdocs, hbody, hsplit, hwalk, hupd]
        · exact store_changedOnlyAt _ _ root node updated hwalk
        · exact Or.inl (updateValue_eq_some key value column hupd)
      | none =>
        refine ⟨node ++ [newMappingValueNode key value column],
          store segs root (node ++ [newMappingValueNode key value column]), ?_, ?_, ?_⟩
        · simp only [SetConfig, hdocs, hbody, hsplit, hwalk, hupd]
        · exact store_changedOnlyAt _ _ root node _ hwalk
        · exact Or.inr ⟨(updateValue_eq_none key value column node).1 hupd, rfl⟩
    · intro e hwalk
      refine ⟨?_, walkPaths_error _ hwalk⟩
      simp only [SetConfig, hdocs, hbody, hsplit, hwalk]
    · intro hwalk
      simp only [SetConfig, hdocs, hbody, hsplit, hwalk]
  · intro hbody
    cases hb : doc.Body with
    | MappingNode root => exact absurd hb (hbody root)
    | MappingValueNode k v => simp only [SetConfig, hdocs, hb]
    | StringNode v c => simp only [SetConfig, hdocs, hb]
    | OtherNode t => simp only [SetConfig, hdocs, hb]

/-- C19, amended, on the sample file and the key path `top.config`: the value of the first of
the two entries `a` of the mapping under `top`, `config` becomes the string node `9`, and
nothing else changes. -/
theorem SetConfig_spec_witness :
    SetConfig sampleNestedFile "top.config" "a" "9" 6 =
        some (none, FileAST.mk [DocumentNode.mk (Node.MappingNode
          [(⟨"top", 1⟩, Node.MappingNode
              [(⟨"name", 1⟩, Node.StringNode "demo" 7),
               (⟨"config", 1⟩, Node.MappingNode
                  [(⟨"a", 3⟩, Node.StringNode "9" 6),
                   (⟨"b", 3⟩, Node.StringNode "2" 6),
                   (⟨"a", 3⟩, Node.StringNode "3" 6)])]),
           (⟨"other", 1⟩, Node.StringNode "x" 8)])]) ∧
      ∃ node2 root2,
        SetConfig sampleNestedFile "top.config" "a" "9" 6 =
          some (none, { Docs := [{ Body := Node.MappingNode root2 }] }) ∧
        ChangedOnlyAt ["top", "config"] sampleTop root2 sampleConfig node2 :=
  ⟨rfl, by
    obtain ⟨node2, root2, h1, h2, _⟩ :=
      ((SetConfig_spec sampleNestedFile { Body := Node.MappingNode sampleTop } []
        ["top", "config"] "a" "9" 6 rfl (by decide) (by decide)).1 sampleTop rfl).1
        sampleConfig rfl
    exact ⟨node2, root2, h1, h2⟩⟩

/-- C20, as stated, fails: in the file with the entries `name: demo` and `config: {a: 1}` the
first document is a mapping and the key path `config` designates the mapping with the one entry
`a`; `DeleteConfig` aborts on the type assertion of `walk`, because the parser built that
mapping as an `*ast.MappingValueNode`. -/
theorem DeleteConfig_one_entry_counterexample :
    splitKeyPath "config" = ["config"] ∧
      DeleteConfig sampleOneEntryNestedFile "config" "a" = none :=
  ⟨rfl, rfl⟩

/-- C20, amended: for the key path made of the segments `segs` joined by dots: `DeleteConfig`
on a file without documents returns no error and the same AST; on a file whose first document
has an `*ast.MappingNode` as body, when every segment resolves, from the body down, to the first
entry with that key and the value of that entry is an `*ast.MappingNode`, it returns no error
and the same AST when no entry of the mapping `node` reached at the end has the key, and
otherwise an AST that differs only in that mapping, from which the first entry with the key is
removed, every other entry (a later entry with the same key included) staying in its place;
when a segment is not found it returns the wrapped error and the same AST; when the value of an
entry on the path, or the body of the first document, is not an `*ast.MappingNode`, the type
assertion aborts. -/
theorem DeleteConfig_spec (f : FileAST) (segs : List String) (key : String)
    (hsegs : ∀ seg ∈ segs, '.' ∉ seg.data) (hne : segs ≠ [""]) :
    (f.Docs = [] → DeleteConfig f (".".intercalate segs) key = some (none, f)) ∧
      (∀ doc docs, f.Docs = doc :: docs →
        (∀ root, doc.Body = Node.MappingNode root →
          (∀ node, walkPaths "failed to delete config" root segs = Outcome.ok node →
            ((∀ e ∈ node, e.1.text ≠ key) →
              DeleteConfig f (".".intercalate segs) key = some (none, f)) ∧
            (∀ before k old after, node = before ++ (k, old) :: after →
              (∀ e ∈ before, e.1.text ≠ key) → k.text = key →
              ∃ root2,
                DeleteConfig f (".".intercalate segs) key =
                  some (none, { Docs := { Body := Node.MappingNode root2 } :: docs }) ∧
                ChangedOnlyAt segs root root2 node (before ++ after))) ∧
          (∀ e, walkPaths "failed to delete config" root segs = Outcome.error e →
            DeleteConfig f (".".intercalate segs) key = some (some e, f) ∧
            ∃ seg ∈ segs,
              e = Error.wrap (Error.configKeyNotFound seg) "failed to delete config") ∧
          (walkPaths "failed to delete config" root segs = Outcome.abort →
            DeleteConfig f (".".intercalate segs) key = none)) ∧
        ((∀ root, doc.Body ≠ Node.MappingNode root) →
          DeleteConfig f (".".intercalate segs) key = none)) := by
  have hsplit := splitKeyPath_intercalate segs hsegs hne
  constructor
  · intro hdocs
    simp only [DeleteConfig, hdocs]
  · intro doc docs hdocs
    constructor
    · intro root hbody
      refine ⟨?_, ?_, ?_⟩
      · intro node hwalk
        constructor
        · intro hno
          have hrem := (removeValue_eq_none key node).2 hno
          simp only [DeleteConfig, hdocs, hbody, hsplit, hwalk, hrem]
        · intro before k old after hnode hbefore hk
          have hrem : removeValue key node = some (before ++ after) := by
            rw [hnode]
            exact removeValue_of_split key before after k old hbefore hk
          refine ⟨store segs root (before ++ after), ?_, ?_⟩
          · simp only [DeleteConfig, hdocs, hbody, hsplit, hwalk, hrem]
          · exact store_changedOnlyAt _ _ root node _ hwalk
      · intro e hwalk
        refine ⟨?_, walkPaths_error _ hwalk⟩
        simp only [DeleteConfig, hdocs, hbody, hsplit, hwalk]
      · intro hwalk
        simp only [DeleteConfig, hdocs, hbody, hsplit, hwalk]
    · intro hbody
      cases hb : doc.Body with
      | MappingNode root => exact absurd hb (hbody root)
      | MappingValueNode k v => simp only [DeleteConfig, hdocs, hb]
      | StringNode v c => simp only [DeleteConfig, hdocs, hb]
      | OtherNode t => simp only [DeleteConfig, hdocs, hb]

/-- C20, amended, on the sample file and the key path `top.config`: the first of the two entries
`a` of the mapping under `top`, `config` is removed and the second stays. -/
theorem DeleteConfig_spec_witness :
    DeleteConfig sampleNestedFile "top.config" "a" =
        some (none, FileAST.mk [DocumentNode.mk (Node.MappingNode
          [(⟨"top", 1⟩, Node.MappingNode
              [(⟨"name", 1⟩, Node.StringNode "demo" 7),
               (⟨"config", 1⟩, Node.MappingNode
                  [(⟨"b", 3⟩, Node.StringNode "2" 6),
                   (⟨"a", 3⟩, Node.StringNode "3" 6)])]),
           (⟨"other", 1⟩, Node.StringNode "x" 8)])]) ∧
      ∃ root2,
        DeleteConfig sampleNestedFile "top.config" "a" =
          some (none, { Docs := [{ Body := Node.MappingNode root2 }] }) ∧
        ChangedOnlyAt ["top", "config"] sampleTop root2 sampleConfig
          [(⟨"b", 3⟩, Node.StringNode "2" 6), (⟨"a", 3⟩, Node.StringNode "3" 6)] :=
  ⟨rfl,
    ((((DeleteConfig_spec sampleNestedFile ["top", "config"] "a" (by decide)
      (by decide)).2 { Body := Node.MappingNode sampleTop } [] rfl).1 sampleTop rfl).1
      sampleConfig rfl).2 [] ⟨"a", 3⟩ (Node.StringNode "1" 6)
      [(⟨"b", 3⟩, Node.StringNode "2" 6), (⟨"a", 3⟩, Node.StringNode "3" 6)]
      rfl (by intro e he; cases he) rfl⟩

end Encoding
